import Mathlib

/-!
# gitai: per-file commit pipeline (`main.go`)

A shallow embedding of the commit-generation pipeline of `main.go`:

* Go strings are byte sequences (`GoString`), so `len` is `List.length` and
  slicing is `List.take` / `List.drop`;
* a Go function returning `(value, error)` returns a pair whose second
  component is `none` for a nil error;
* calls that leave the process (git commands, the HTTP exchange, file reads)
  are state transformers on an abstract world `W`;
* the goroutines of `processFiles` are a transition system whose steps are the
  statements the goroutines execute, in any interleaving.
-/

namespace Gitai

/-! ## Strings and errors -/

/-- A Go string: its bytes, each below 256. -/
abbrev GoString := List Nat

/-- An operand of a formatting verb. -/
inductive FmtArg
  | int (n : Int)
  | str (s : GoString)
  deriving DecidableEq

/-- A Go error value: one handed back by a library call, one built by
`fmt.Errorf(format, args...)`, or one built by `fmt.Errorf` with a `%w` verb
around another error (the format keeps the source text). -/
inductive GoError
  | lib (msg : GoString)
  | errorf (format : String) (args : List FmtArg)
  | wrapf (format : String) (inner : GoError)
  deriving DecidableEq

/-- The constant `maxCommitLength`. -/
def maxCommitLength : Nat := 72

/-- The constant `anthropicAPIURL`. -/
def anthropicAPIURL : String := "https://api.anthropic.com/v1/messages"

/-- The constant `modelName`. -/
def modelName : String := "claude-haiku-4-5-20251001"

/-- The string literal `"..."` as bytes. -/
def ellipsis : GoString := [46, 46, 46]

/-! ## `unicode/utf8` and `strings.TrimSpace` (Go standard library) -/

/-- The constant `utf8.RuneSelf`: bytes below it are single-byte runes. -/
def RuneSelf : Nat := 0x80

/-- The constant `utf8.RuneError`. -/
def RuneError : Nat := 0xFFFD

/-- The table `asciiSpace` of package `strings`. -/
def asciiSpace (c : Nat) : Bool :=
  c == 9 || c == 10 || c == 11 || c == 12 || c == 13 || c == 32

/-- The predicate `unicode.IsSpace` on a rune. -/
def IsSpace (r : Nat) : Bool :=
  if r ≤ 0xFF then
    r == 9 || r == 10 || r == 11 || r == 12 || r == 13 || r == 32 || r == 0x85 || r == 0xA0
  else
    r == 0x1680 || (0x2000 ≤ r && r ≤ 0x200A) || r == 0x2028 || r == 0x2029
      || r == 0x202F || r == 0x205F || r == 0x3000

/-- The table `first` of package `utf8`: information about the first byte of
an encoding (`0xF0` ASCII, `0xF1` invalid, otherwise accept-range index in the
high nibble and size in the low one). -/
def first (b : Nat) : Nat :=
  if b < 0x80 then 0xF0
  else if b < 0xC2 then 0xF1
  else if b < 0xE0 then 0x02
  else if b == 0xE0 then 0x13
  else if b < 0xED then 0x03
  else if b == 0xED then 0x23
  else if b < 0xF0 then 0x03
  else if b == 0xF0 then 0x34
  else if b < 0xF4 then 0x04
  else if b == 0xF4 then 0x44
  else 0xF1

/-- The table `acceptRanges` of package `utf8`: bounds on the second byte. -/
def acceptRanges (i : Nat) : Nat × Nat :=
  match i with
  | 0 => (0x80, 0xBF)
  | 1 => (0xA0, 0xBF)
  | 2 => (0x80, 0x9F)
  | 3 => (0x90, 0xBF)
  | 4 => (0x80, 0x8F)
  | _ => (0, 0)

/-- The function `utf8.DecodeRuneInString`: the first rune of `s` and its
width in bytes; `(RuneError, 1)` on an invalid encoding, `(RuneError, 0)` on
the empty string. -/
def DecodeRuneInString (s : GoString) : Nat × Nat :=
  match s with
  | [] => (RuneError, 0)
  | s0 :: t =>
    let x := first s0
    if x ≥ 0xF0 then
      (if x == 0xF0 then s0 else RuneError, 1)
    else
      let sz := x &&& 7
      let accept := acceptRanges (x >>> 4)
      if s.length < sz then (RuneError, 1)
      else
        let s1 := t.getD 0 0
        if s1 < accept.1 || accept.2 < s1 then (RuneError, 1)
        else if sz ≤ 2 then (((s0 &&& 0x1F) <<< 6) ||| (s1 &&& 0x3F), 2)
        else
          let s2 := t.getD 1 0
          if s2 < 0x80 || 0xBF < s2 then (RuneError, 1)
          else if sz ≤ 3 then
            (((s0 &&& 0x0F) <<< 12) ||| ((s1 &&& 0x3F) <<< 6) ||| (s2 &&& 0x3F), 3)
          else
            let s3 := t.getD 2 0
            if s3 < 0x80 || 0xBF < s3 then (RuneError, 1)
            else
              (((s0 &&& 0x07) <<< 18) ||| ((s1 &&& 0x3F) <<< 12) ||| ((s2 &&& 0x3F) <<< 6)
                ||| (s3 &&& 0x3F), 4)

/-- The function `utf8.RuneStart`: whether `b` could be the first byte of an
encoded rune. -/
def RuneStart (b : Nat) : Bool := (b &&& 0xC0) != 0x80

/-- The backward scan of `utf8.DecodeLastRuneInString`:
`for start--; start >= lim; start-- { if RuneStart(s[start]) { break } }`,
entered with `start` already decremented; the result is `start` after the
loop. At most three bytes are at or above `lim`, so four rounds end the loop. -/
def scanBack (s : GoString) (lim : Int) : Nat → Int → Int
  | 0, start => start
  | fuel + 1, start =>
    if start ≥ lim then
      if RuneStart (s.getD start.toNat 0) then start else scanBack s lim fuel (start - 1)
    else start

/-- The function `utf8.DecodeLastRuneInString`: the last rune of `s` and its
width in bytes. -/
def DecodeLastRuneInString (s : GoString) : Nat × Nat :=
  let end_ : Int := s.length
  if end_ = 0 then (RuneError, 0)
  else
    let r := s.getD (s.length - 1) 0
    if r < RuneSelf then (r, 1)
    else
      let lim : Int := if end_ - 4 < 0 then 0 else end_ - 4
      let start := scanBack s lim 4 (end_ - 2)
      let start := if start < 0 then 0 else start
      let (r, size) := DecodeRuneInString (s.drop start.toNat)
      if start + size ≠ end_ then (RuneError, 1) else (r, size)

/-- The function `strings.TrimLeftFunc`, whose loop is that of `indexFunc`
with `truth = false`: skip leading runes satisfying `f`. Each round consumes
at least one byte, so `len(s)` rounds are enough. -/
def trimLeftLoop (f : Nat → Bool) : Nat → GoString → GoString
  | 0, _ => []
  | fuel + 1, s =>
    match s with
    | [] => []
    | _ :: _ =>
      let (r, size) := DecodeRuneInString s
      if f r then trimLeftLoop f fuel (s.drop size) else s

/-- The function `strings.TrimLeftFunc`. -/
def TrimLeftFunc (s : GoString) (f : Nat → Bool) : GoString :=
  trimLeftLoop f s.length s

/-- The function `lastIndexFunc` of package `strings` with `truth = false`,
on the prefix `s[0:i]`: the index of the last rune not satisfying `f`, or
`-1`. Each round consumes at least one byte. -/
def lastIndexLoop (f : Nat → Bool) (s : GoString) : Nat → Nat → Int
  | 0, _ => -1
  | fuel + 1, i =>
    if i > 0 then
      let (r, size) := DecodeLastRuneInString (s.take i)
      let i := i - size
      if f r then lastIndexLoop f s fuel i else (i : Int)
    else -1

/-- The function `strings.TrimRightFunc`. -/
def TrimRightFunc (s : GoString) (f : Nat → Bool) : GoString :=
  let i := lastIndexLoop f s s.length s.length
  if i ≥ 0 && s.getD i.toNat 0 ≥ RuneSelf then
    let wid := (DecodeRuneInString (s.drop i.toNat)).2
    s.take (i.toNat + wid)
  else
    s.take (i + 1).toNat

/-- The function `strings.TrimFunc`. -/
def TrimFunc (s : GoString) (f : Nat → Bool) : GoString :=
  TrimRightFunc (TrimLeftFunc s f) f

/-- The second loop of `strings.TrimSpace`, on the reversed text
`s[start:stop]`: drop trailing ASCII spaces, handing over to `TrimRightFunc`
at the first byte that is not ASCII. -/
def trimSpaceRight : GoString → GoString
  | [] => []
  | c :: rest =>
    if c ≥ RuneSelf then TrimRightFunc (c :: rest).reverse IsSpace
    else if asciiSpace c then trimSpaceRight rest
    else (c :: rest).reverse

/-- The function `strings.TrimSpace`: `s` without leading and trailing white
space as defined by Unicode. -/
def TrimSpace : GoString → GoString
  | [] => []
  | c :: rest =>
    if c ≥ RuneSelf then TrimFunc (c :: rest) IsSpace
    else if asciiSpace c then TrimSpace rest
    else trimSpaceRight (c :: rest).reverse

/-- The function `utf8.RuneCountInString`, by repeated decoding. -/
def runeCountLoop : Nat → GoString → Nat
  | 0, _ => 0
  | fuel + 1, s =>
    match s with
    | [] => 0
    | _ :: _ => 1 + runeCountLoop fuel (s.drop (DecodeRuneInString s).2)

/-- The function `utf8.RuneCountInString`: the number of runes in `s`. -/
def RuneCountInString (s : GoString) : Nat := runeCountLoop s.length s

/-! ## Data model -/

/-- The struct `Message`. -/
structure Message where
  Role : String
  Content : GoString
  deriving DecidableEq

/-- The struct `AnthropicRequest`. -/
structure AnthropicRequest where
  Model : String
  MaxTokens : Int
  Messages : List Message
  deriving DecidableEq

/-- The struct `Content`: one content block of a response. -/
structure Content where
  Text : GoString
  deriving DecidableEq

/-- The struct `APIError` (its field `Type` is `Kind` here). -/
structure APIError where
  Kind : GoString
  Message : GoString
  deriving DecidableEq

/-- The struct `AnthropicResponse`; a nil `Error` pointer is `none`. -/
structure AnthropicResponse where
  Content : List Gitai.Content
  Error : Option APIError
  deriving DecidableEq

/-- The struct `FileCommit`; a nil `Error` is `none`. -/
structure FileCommit where
  FilePath : GoString
  Diff : GoString
  CommitMessage : GoString
  Error : Option GoError
  deriving DecidableEq

/-- The zero value of `FileCommit`, as `make([]FileCommit, n)` fills a slice. -/
def FileCommit.zero : FileCommit :=
  { FilePath := [], Diff := [], CommitMessage := [], Error := none }

/-! ## The outside world -/

/-- An argument of `exec.Command`: a string literal of the source or a value. -/
inductive CmdArg
  | lit (s : String)
  | val (s : GoString)
  deriving DecidableEq

/-- An `*http.Request`: method, URL, body and the headers set on it. -/
structure HttpRequest where
  Method : String
  URL : String
  Body : GoString
  Header : List (String × List GoString)
  deriving DecidableEq

/-- The function `validHeaderFieldByte` of `net/textproto`: whether the byte
`c` is a token character (a letter, a digit or one of the fifteen marks of
RFC 7230). -/
def validHeaderFieldByte (c : Nat) : Bool :=
  (48 ≤ c && c ≤ 57) || (65 ≤ c && c ≤ 90) || (97 ≤ c && c ≤ 122) ||
  c == 33 || c == 35 || c == 36 || c == 37 || c == 38 || c == 39 || c == 42 || c == 43 ||
  c == 45 || c == 46 || c == 94 || c == 95 || c == 96 || c == 124 || c == 126

/-- The second loop of `canonicalMIMEHeaderKey` of `net/textproto`: upper
case for the first letter and for a letter after a dash, lower case for the
other letters; `upper` says which applies to the next character. -/
def canonicalLoop : Bool → List Char → List Char
  | _, [] => []
  | upper, c :: rest =>
    let c :=
      if upper && 97 ≤ c.toNat && c.toNat ≤ 122 then Char.ofNat (c.toNat - 32)
      else if !upper && 65 ≤ c.toNat && c.toNat ≤ 90 then Char.ofNat (c.toNat + 32)
      else c
    c :: canonicalLoop (c.toNat == 45) rest

/-- The function `textproto.CanonicalMIMEHeaderKey`: the canonical form of a
header key; a key holding a space or a character that is not a token
character is returned unchanged. -/
def CanonicalMIMEHeaderKey (key : String) : String :=
  if key.toList.all (fun c => validHeaderFieldByte c.toNat) then
    String.mk (canonicalLoop true key.toList)
  else key

/-- The method `Header.Set`: the entry under the canonical form of `key`
becomes the single value `value`. -/
def HttpRequest.setHeader (req : HttpRequest) (key : String) (value : GoString) : HttpRequest :=
  { req with
    Header := (req.Header.filter (fun kv => kv.1 != CanonicalMIMEHeaderKey key))
      ++ [(CanonicalMIMEHeaderKey key, [value])] }

/-- An `*http.Response`: the status code, and what `io.ReadAll(resp.Body)`
yields for its body. -/
structure HttpResponse where
  StatusCode : Int
  Body : Except GoError GoString

/-- What `main.go` prints, one constructor per printing statement of
`displayAndCommit`. -/
inductive Out
  | blank
  | file (filename : GoString)
  | errorLine (err : GoError)
  | commitMsg (msg : GoString)
  | failed (err : GoError)
  | summary (success failed : Nat)
  deriving DecidableEq

/-- The library and operating-system calls of `main.go`. Calls that act on the
repository, the file system, the network or the terminal transform the world
`W`; `Sprintf`, `json.Marshal`, `http.NewRequest` and `json.Unmarshal` are
functions of their arguments. `apiKey` is the variable `ANTHROPIC_API_KEY`. -/
structure Sys (W : Type) where
  apiKey : GoString
  Sprintf : String → List FmtArg → GoString
  jsonMarshal : AnthropicRequest → Except GoError GoString
  newRequest : String → String → GoString → Except GoError HttpRequest
  httpDo : HttpRequest → W → Except GoError HttpResponse × W
  jsonUnmarshal : GoString → Except GoError AnthropicResponse
  run : List CmdArg → W → Option GoError × W
  output : List CmdArg → W → Except GoError GoString × W
  readFile : GoString → W → Except GoError GoString × W
  emit : Out → W → W

/-! ## Leaf functions -/

/-- The format string of the prompt in `generateCommitMessage`. -/
def promptFormat : String :=
  "Generate a concise git commit message for this diff.\n\nRULES:\n- Max %d characters total\n- Imperative mood (\"Add\" not \"Added\")\n- Specific and clear\n- Focus on WHAT and WHY\n- No formatting, just the message\n\nFile: %s\nDiff: %s\n\nMessage:"

/-- The function `getFileDiff`. -/
def getFileDiff {W : Type} (sys : Sys W) (filePath : GoString) (w : W) :
    (GoString × Option GoError) × W :=
  let (headErr, w) := sys.run [.lit "git", .lit "rev-parse", .lit "HEAD"] w
  let hasCommits := headErr.isNone
  let (res, w) :=
    if hasCommits then
      sys.output [.lit "git", .lit "diff", .lit "HEAD", .lit "--", .val filePath] w
    else
      let (_, w) := sys.run [.lit "git", .lit "add", .lit "--intent-to-add", .val filePath] w
      sys.output [.lit "git", .lit "diff", .lit "--", .val filePath] w
  match res with
  | .error err => (([], some (.wrapf "diff failed: %w" err)), w)
  | .ok output =>
    if output.length = 0 then
      match sys.readFile filePath w with
      | (.error err, w) => (([], some (.wrapf "read failed: %w" err)), w)
      | (.ok content, w) => ((content, none), w)
    else ((output, none), w)

/-- The value `reqBody` of `generateCommitMessage`: the request carrying the
prompt for `diff` and `filePath`. -/
def requestBody {W : Type} (sys : Sys W) (diff filePath : GoString) : AnthropicRequest :=
  let prompt := sys.Sprintf promptFormat [.int maxCommitLength, .str filePath, .str diff]
  { Model := modelName, MaxTokens := 100, Messages := [{ Role := "user", Content := prompt }] }

/-- The three `req.Header.Set` statements of `generateCommitMessage`; the
values are `"application/json"`, the API key and `"2023-06-01"`. -/
def setHeaders {W : Type} (sys : Sys W) (req : HttpRequest) : HttpRequest :=
  let req := req.setHeader "Content-Type" [97, 112, 112, 108, 105, 99, 97, 116, 105, 111, 110, 47,
    106, 115, 111, 110]
  let req := req.setHeader "x-api-key" sys.apiKey
  req.setHeader "anthropic-version" [50, 48, 50, 51, 45, 48, 54, 45, 48, 49]

/-- The function `generateCommitMessage`. -/
def generateCommitMessage {W : Type} (sys : Sys W) (diff filePath : GoString) (w : W) :
    (GoString × Option GoError) × W :=
  match sys.jsonMarshal (requestBody sys diff filePath) with
  | .error err => (([], some err), w)
  | .ok jsonData =>
  match sys.newRequest "POST" anthropicAPIURL jsonData with
  | .error err => (([], some err), w)
  | .ok req =>
  match sys.httpDo (setHeaders sys req) w with
  | (.error err, w) => (([], some (.wrapf "API call failed: %w" err)), w)
  | (.ok resp, w) =>
  match resp.Body with
  | .error err => (([], some err), w)
  | .ok body =>
  if resp.StatusCode ≠ 200 then
    (([], some (.errorf "API error %d: %s" [.int resp.StatusCode, .str body])), w)
  else
  match sys.jsonUnmarshal body with
  | .error err => (([], some err), w)
  | .ok apiResp =>
  match apiResp.Error with
  | some e => (([], some (.errorf "%s: %s" [.str e.Kind, .str e.Message])), w)
  | none =>
  match apiResp.Content with
  | [] => (([], some (.errorf "empty response" [])), w)
  | c0 :: _ =>
    let msg := TrimSpace c0.Text
    let msg :=
      if msg.length > maxCommitLength then msg.take (maxCommitLength - 3) ++ ellipsis else msg
    ((msg, none), w)

/-- The service answers the request that `generateCommitMessage` sends for
`diff` and `filePath` in the world `w`: the transport succeeds with the
response `resp`, whose body reads as `body`, and the world becomes `w1`. -/
def Receives {W : Type} (sys : Sys W) (diff filePath : GoString) (w : W)
    (resp : HttpResponse) (body : GoString) (w1 : W) : Prop :=
  ∃ jsonData req,
    sys.jsonMarshal (requestBody sys diff filePath) = .ok jsonData ∧
    sys.newRequest "POST" anthropicAPIURL jsonData = .ok req ∧
    sys.httpDo (setHeaders sys req) w = (.ok resp, w1) ∧
    resp.Body = .ok body

/-- The function `stageAndCommitFile`. -/
def stageAndCommitFile {W : Type} (sys : Sys W) (filePath message : GoString) (w : W) :
    Option GoError × W :=
  match sys.run [.lit "git", .lit "add", .val filePath] w with
  | (some err, w) => (some err, w)
  | (none, w) =>
    match sys.run [.lit "git", .lit "commit", .lit "-m", .val message] w with
    | (some err, w) => (some err, w)
    | (none, w) => (none, w)

/-! ## The unit processor -/

/-- The two functions `processFile` calls, as state transformers. -/
structure UnitDeps (W : Type) where
  getFileDiff : GoString → W → (GoString × Option GoError) × W
  generateCommitMessage : GoString → GoString → W → (GoString × Option GoError) × W

/-- The functions `getFileDiff` and `generateCommitMessage` of `main.go`. -/
def Sys.unitDeps {W : Type} (sys : Sys W) : UnitDeps W :=
  { getFileDiff := Gitai.getFileDiff sys, generateCommitMessage := Gitai.generateCommitMessage sys }

/-- The function `processFile`. -/
def processFile {W : Type} (d : UnitDeps W) (filePath : GoString) (w : W) : FileCommit × W :=
  match d.getFileDiff filePath w with
  | ((_, some err), w) =>
    ({ FilePath := filePath, Diff := [], CommitMessage := [], Error := some err }, w)
  | ((diff, none), w) =>
    match d.generateCommitMessage diff filePath w with
    | ((_, some err), w) =>
      ({ FilePath := filePath, Diff := diff, CommitMessage := [], Error := some err }, w)
    | ((commitMsg, none), w) =>
      ({ FilePath := filePath, Diff := diff, CommitMessage := commitMsg, Error := none }, w)

/-- The dependencies `d` with every call of `generateCommitMessage` counted in
a second component of the world. -/
def UnitDeps.counting {W : Type} (d : UnitDeps W) : UnitDeps (W × Nat) :=
  { getFileDiff := fun filePath wn =>
      let (r, w) := d.getFileDiff filePath wn.1
      (r, (w, wn.2))
    generateCommitMessage := fun diff filePath wn =>
      let (r, w) := d.generateCommitMessage diff filePath wn.1
      (r, (w, wn.2 + 1)) }

/-- A service for examples: every request is answered with status `status`
and an empty body, which decodes to `apiResp`; git commands and file reads
succeed with empty output. -/
def sampleSys (status : Int) (apiResp : AnthropicResponse) : Sys Unit :=
  { apiKey := []
    Sprintf := fun _ _ => []
    jsonMarshal := fun _ => .ok []
    newRequest := fun method url body => .ok { Method := method, URL := url, Body := body, Header := [] }
    httpDo := fun _ w => (.ok { StatusCode := status, Body := .ok [] }, w)
    jsonUnmarshal := fun _ => .ok apiResp
    run := fun _ w => (none, w)
    output := fun _ w => (.ok [], w)
    readFile := fun _ w => (.ok [], w)
    emit := fun _ w => w }

/-! ## The commit applier -/

/-- What `displayAndCommit` calls: `stageAndCommitFile` and the printing
statements, as state transformers. -/
structure ApplyDeps (W : Type) where
  stageAndCommitFile : GoString → GoString → W → Option GoError × W
  emit : Out → W → W

/-- The function `stageAndCommitFile` and the terminal of `main.go`. -/
def Sys.applyDeps {W : Type} (sys : Sys W) : ApplyDeps W :=
  { stageAndCommitFile := Gitai.stageAndCommitFile sys, emit := sys.emit }

/-- The loop `for _, commit := range results` of `displayAndCommit`, from the
counters `successCount` and `failCount` and the world `w`. -/
def displayLoop {W : Type} (d : ApplyDeps W) :
    List FileCommit → Nat → Nat → W → (Nat × Nat) × W
  | [], successCount, failCount, w => ((successCount, failCount), w)
  | commit :: rest, successCount, failCount, w =>
    match commit.Error with
    | some err =>
      let w := d.emit (.file commit.FilePath) w
      let w := d.emit (.errorLine err) w
      displayLoop d rest successCount (failCount + 1) w
    | none =>
      let w := d.emit (.file commit.FilePath) w
      let w := d.emit (.commitMsg commit.CommitMessage) w
      match d.stageAndCommitFile commit.FilePath commit.CommitMessage w with
      | (some err, w) =>
        let w := d.emit (.failed err) w
        let w := d.emit .blank w
        displayLoop d rest successCount (failCount + 1) w
      | (none, w) =>
        let w := d.emit .blank w
        displayLoop d rest (successCount + 1) failCount w

/-- The function `displayAndCommit`; the counters it hands to `printSummary`
are returned with the final world. -/
def displayAndCommit {W : Type} (d : ApplyDeps W) (results : List FileCommit) (w : W) :
    (Nat × Nat) × W :=
  let w := d.emit .blank w
  let ((successCount, failCount), w) := displayLoop d results 0 0 w
  let w := d.emit (.summary successCount failCount) w
  ((successCount, failCount), w)

/-- An entry of the journal kept by `ApplyDeps.recording`. -/
inductive Event
  | printed (o : Out)
  | staged (filePath message : GoString) (err : Option GoError)
  deriving DecidableEq

/-- The dependencies `d` with a journal in a second component of the world:
every printing statement and every call of `stageAndCommitFile`, with its
arguments and its result, is appended as it happens. -/
def ApplyDeps.recording {W : Type} (d : ApplyDeps W) : ApplyDeps (W × List Event) :=
  { stageAndCommitFile := fun filePath message wj =>
      let (err, w) := d.stageAndCommitFile filePath message wj.1
      (err, (w, wj.2 ++ [.staged filePath message err]))
    emit := fun o wj => (d.emit o wj.1, wj.2 ++ [.printed o]) }

/-- The calls of `stageAndCommitFile` in a journal: their arguments. -/
def Event.stagedPairs : List Event → List (GoString × GoString)
  | [] => []
  | .staged filePath message _ :: rest => (filePath, message) :: Event.stagedPairs rest
  | .printed _ :: rest => Event.stagedPairs rest

/-- The calls of `stageAndCommitFile` in a journal that returned nil. -/
def Event.stagedOk : List Event → Nat
  | [] => 0
  | .staged _ _ none :: rest => Event.stagedOk rest + 1
  | _ :: rest => Event.stagedOk rest

/-- The files named by `printFile` in a journal. -/
def Event.visited : List Event → List GoString
  | [] => []
  | .printed (.file filename) :: rest => filename :: Event.visited rest
  | _ :: rest => Event.visited rest

/-! ## The concurrent orchestrator -/

/-- The conversion `int32(x)` and the arithmetic of `atomic.Int32`: the value
of `x` in 32-bit two's complement. -/
def wrapInt32 (x : Int) : Int := (x + 2 ^ 31) % 2 ^ 32 - 2 ^ 31

namespace processFiles

/-- Where the goroutine running `processFiles` stands. -/
inductive MainPc
  /-- At the head of the `range` loop with index `i`, before `wg.Add(1)`. -/
  | loop (i : Nat)
  /-- After `wg.Add(1)`, before the `go` statement of index `i`. -/
  | launch (i : Nat)
  /-- At `wg.Wait()`. -/
  | wait
  /-- Past `wg.Wait()`: `processFiles` has returned `results`. -/
  | returned
  deriving DecidableEq

/-- Where the goroutine of one index stands. -/
inductive WorkerPc
  /-- Not launched yet. -/
  | absent
  /-- Launched, before `results[idx] = processFile(filePath)`. -/
  | start
  /-- Result stored, before `processing.Add(-1)`. -/
  | stored
  /-- Counter decremented, before the deferred `wg.Done()`. -/
  | counted
  /-- Finished. -/
  | exited
  deriving DecidableEq

/-- The state shared by the goroutines of `processFiles`: the program points,
the slice `results`, the counter of the wait group `wg` and the value of the
counter `processing`. -/
structure State where
  main : MainPc
  workers : List WorkerPc
  results : List FileCommit
  wg : Int
  processing : Int
  deriving DecidableEq

/-- The state when `main` calls `processFiles(files, &processing)`, after
`processing.Store(int32(len(files)))` and `make([]FileCommit, len(files))`. -/
def init (files : List GoString) : State :=
  { main := .loop 0
    workers := List.replicate files.length .absent
    results := List.replicate files.length FileCommit.zero
    wg := 0
    processing := wrapInt32 files.length }

/-- Who takes the next step: the goroutine of `processFiles`, or the goroutine
of index `idx`; `w` is the world in which that goroutine runs `processFile`. -/
inductive Action (W : Type)
  | main
  | worker (idx : Nat) (w : W)

/-- One statement of one goroutine; `none` when that goroutine cannot move
(it has finished, is not launched, or waits in `wg.Wait()` on a counter that
is not zero). The goroutine of index `idx` was launched with the arguments
`(idx, files[idx])`. -/
def step {W : Type} (d : UnitDeps W) (files : List GoString) (s : State) :
    Action W → Option State
  | .main =>
    match s.main with
    | .loop i =>
      if i < files.length then some { s with wg := s.wg + 1, main := .launch i }
      else some { s with main := .wait }
    | .launch i => some { s with workers := s.workers.set i .start, main := .loop (i + 1) }
    | .wait => if s.wg = 0 then some { s with main := .returned } else none
    | .returned => none
  | .worker idx w =>
    match s.workers[idx]? with
    | some .start =>
      some { s with
        results := s.results.set idx (processFile d (files.getD idx []) w).1
        workers := s.workers.set idx .stored }
    | some .stored =>
      some { s with
        processing := wrapInt32 (s.processing - 1)
        workers := s.workers.set idx .counted }
    | some .counted => some { s with wg := s.wg - 1, workers := s.workers.set idx .exited }
    | _ => none

/-- A schedule run from `s`: the state after all its steps, `none` if one of
them cannot be taken. -/
def run {W : Type} (d : UnitDeps W) (files : List GoString) (s : State) :
    List (Action W) → Option State
  | [] => some s
  | a :: rest =>
    match step d files s a with
    | some s1 => run d files s1 rest
    | none => none

/-- The states a run of `processFiles` on `files` can be in. -/
def Reachable {W : Type} (d : UnitDeps W) (files : List GoString) (s : State) : Prop :=
  ∃ sched : List (Action W), run d files (init files) sched = some s

/-- The goroutines that have executed `processing.Add(-1)`: the completed
units. -/
def completed (s : State) : Nat :=
  s.workers.countP (fun p => p == .counted || p == .exited)

/-- The statements still to be executed: a bound on the length of every run
from `s`. -/
def remaining (n : Nat) (s : State) : Nat :=
  (match s.main with
    | .loop i => 2 * (n - i) + 2
    | .launch i => 2 * (n - i) + 1
    | .wait => 1
    | .returned => 0)
  + (s.workers.map (fun p =>
      match p with
      | .absent => 3
      | .start => 3
      | .stored => 2
      | .counted => 1
      | .exited => 0)).sum

end processFiles

namespace processFiles

/-- The number of `go` statements executed so far. -/
def spawned (n : Nat) : MainPc → Nat
  | .loop i => i
  | .launch i => i
  | .wait => n
  | .returned => n

/-- The goroutines that are launched and have not executed `wg.Done()`. -/
def active (s : State) : Nat :=
  s.workers.countP (fun p => p == .start || p == .stored || p == .counted)

/-- What holds in every state of a run of `processFiles` on `files`. -/
structure Inv {W : Type} (d : UnitDeps W) (files : List GoString) (s : State) : Prop where
  workers_len : s.workers.length = files.length
  results_len : s.results.length = files.length
  main_bound : match s.main with
    | .loop i => i ≤ files.length
    | .launch i => i < files.length
    | _ => True
  absent_iff : ∀ j, j < files.length →
    (s.workers[j]? = some .absent ↔ spawned files.length s.main ≤ j)
  wg_eq : s.wg = active s + (match s.main with
    | .launch _ => 1
    | _ => 0)
  processing_eq : s.processing = wrapInt32 ((files.length : Int) - completed s)
  stored_result : ∀ j p, s.workers[j]? = some p → p ≠ .absent → p ≠ .start →
    ∃ w, s.results[j]? = some (processFile d (files.getD j []) w).1
  returned_all : s.main = .returned → ∀ j, j < files.length → s.workers[j]? = some .exited

end processFiles

/-! ## Examples -/

/-- The 75-byte text `"  " ++ 73 × "a"`: longer than the cap after trimming. -/
def longText : GoString := 32 :: 32 :: List.replicate 73 97

/-- The text of `n` letters `é` (U+00E9), each encoded in the two bytes
`0xC3 0xA9`. -/
def accented : Nat → GoString
  | 0 => []
  | n + 1 => 195 :: 169 :: accented n

/-- The text `"a\nb"`. -/
def brokenText : GoString := [97, 10, 98]

/-- The text `"Add x\n\nBody"`. -/
def multilineText : GoString := [65, 100, 100, 32, 120, 10, 10, 66, 111, 100, 121]

/-- Dependencies for examples: diff resolution fails with `"no diff"` for the
path `"x"` and returns the path as diff otherwise; synthesis returns the diff
as message. -/
def sampleDeps : UnitDeps Unit :=
  { getFileDiff := fun filePath w =>
      if filePath = [120] then (([], some (.lib [110, 111, 32, 100, 105, 102, 102])), w)
      else ((filePath, none), w)
    generateCommitMessage := fun diff _ w => ((diff, none), w) }

namespace processFiles

/-- The paths `"a"` and `"x"`, for examples. -/
def sampleFiles : List GoString := [[97], [120]]

/-- A schedule for two files in which the goroutines interleave with each
other and with the loop of `processFiles`. -/
def sampleSched : List (Action Unit) :=
  [.main, .main, .worker 0 (), .main, .main, .worker 1 (), .worker 0 (), .main,
    .worker 1 (), .worker 0 (), .worker 1 (), .main]

/-- The state in which `sampleSched` ends on `sampleFiles` with `sampleDeps`:
`"a"` has diff and message `"a"`, and `"x"` has the error of its diff. -/
def sampleFinal : State :=
  { main := .returned
    workers := [.exited, .exited]
    results :=
      [{ FilePath := [97], Diff := [97], CommitMessage := [97], Error := none },
       { FilePath := [120], Diff := [], CommitMessage := [],
         Error := some (.lib [110, 111, 32, 100, 105, 102, 102]) }]
    wg := 0
    processing := 0 }

end processFiles

/-! # Theorems -/

/-! ## The message synthesizer -/

/-- The cap applied by `generateCommitMessage` yields at most
`maxCommitLength` bytes. -/
theorem clip_length (t : GoString) :
    (if t.length > maxCommitLength then t.take (maxCommitLength - 3) ++ ellipsis else t).length
      ≤ maxCommitLength := by
  unfold maxCommitLength ellipsis
  split
  · simp [List.length_append, List.length_take]
  · omega

/-- The two shapes of what `generateCommitMessage` returns: an empty message
with an error, or a capped text with a nil error. -/
theorem generateCommitMessage_out {W : Type} (sys : Sys W) (diff filePath : GoString) (w : W) :
    (∃ e, (generateCommitMessage sys diff filePath w).1 = ([], some e)) ∨
    (∃ t, (generateCommitMessage sys diff filePath w).1 =
      (if t.length > maxCommitLength then t.take (maxCommitLength - 3) ++ ellipsis else t,
        none)) := by
  unfold generateCommitMessage
  repeat' split
  all_goals first
    | exact Or.inl ⟨_, rfl⟩
    | exact Or.inr ⟨_, rfl⟩

/-- What `generateCommitMessage` returns is the empty message or the capped
result of `strings.TrimSpace` on some text. -/
theorem generateCommitMessage_trimmed {W : Type} (sys : Sys W) (diff filePath : GoString)
    (w : W) :
    (generateCommitMessage sys diff filePath w).1.1 = [] ∨
    (∃ t, (generateCommitMessage sys diff filePath w).1.1 =
      (if (TrimSpace t).length > maxCommitLength
        then (TrimSpace t).take (maxCommitLength - 3) ++ ellipsis else TrimSpace t)) := by
  unfold generateCommitMessage
  repeat' split
  all_goals first
    | exact Or.inl rfl
    | exact Or.inr ⟨_, rfl⟩

/-- A string has at most as many runes as bytes. -/
theorem runeCountLoop_le (fuel : Nat) (s : GoString) : runeCountLoop fuel s ≤ s.length := by
  induction fuel generalizing s with
  | zero => simp [runeCountLoop]
  | succ n ih =>
    cases s with
    | nil => simp [runeCountLoop]
    | cons a t =>
      simp only [runeCountLoop]
      have h := ih ((a :: t).drop (DecodeRuneInString (a :: t)).2)
      have hpos : 1 ≤ (DecodeRuneInString (a :: t)).2 := by
        unfold DecodeRuneInString
        simp only []
        repeat' split
        all_goals simp
      simp only [List.length_drop, List.length_cons] at h ⊢
      omega

/-- What `generateCommitMessage` returns once a response with status 200 has
been received and decoded to a response without error object whose first
content block is `c0`. -/
theorem generateCommitMessage_accepted {W : Type} (sys : Sys W) (diff filePath : GoString)
    (w w1 : W) (resp : HttpResponse) (body : GoString) (apiResp : AnthropicResponse)
    (c0 : Content) (cs : List Content)
    (hrecv : Receives sys diff filePath w resp body w1)
    (hstatus : resp.StatusCode = 200)
    (hdecode : sys.jsonUnmarshal body = .ok apiResp)
    (herr : apiResp.Error = none)
    (hcontent : apiResp.Content = c0 :: cs) :
    generateCommitMessage sys diff filePath w =
      ((if (TrimSpace c0.Text).length > maxCommitLength
          then (TrimSpace c0.Text).take (maxCommitLength - 3) ++ ellipsis
          else TrimSpace c0.Text, none), w1) := by
  obtain ⟨jsonData, req, hj, hr, hd, hb⟩ := hrecv
  simp [generateCommitMessage, hj, hr, hd, hb, hstatus, hdecode, herr, hcontent]

/-- Claim C1: whatever the diff, the path and the behaviour of the service,
the message returned by `generateCommitMessage` has at most 72 bytes (Go
`len`), hence also at most 72 runes; in particular so has every message
returned for an accepted response. -/
theorem generateCommitMessage_length_le {W : Type} (sys : Sys W) (diff filePath : GoString)
    (w : W) :
    (generateCommitMessage sys diff filePath w).1.1.length ≤ 72 ∧
    RuneCountInString (generateCommitMessage sys diff filePath w).1.1 ≤ 72 := by
  have hlen : (generateCommitMessage sys diff filePath w).1.1.length ≤ maxCommitLength := by
    rcases generateCommitMessage_out sys diff filePath w with ⟨e, h⟩ | ⟨t, h⟩
    · rw [h]; simp
    · rw [h]; exact clip_length t
  exact ⟨hlen, le_trans (runeCountLoop_le _ _) hlen⟩

/-- An ASCII byte is decoded as itself, with width 1. -/
theorem decode_ascii (b : Nat) (t : GoString) (h : b < 0x80) :
    DecodeRuneInString (b :: t) = (b, 1) := by
  simp [DecodeRuneInString, first, h]

/-- A string of ASCII bytes has as many runes as bytes. -/
theorem runeCountLoop_ascii (fuel : Nat) (s : GoString) (hfuel : s.length ≤ fuel)
    (hs : ∀ b ∈ s, b < 0x80) : runeCountLoop fuel s = s.length := by
  induction fuel generalizing s with
  | zero =>
    have : s = [] := List.length_eq_zero.1 (by omega)
    subst this
    rfl
  | succ n ih =>
    cases s with
    | nil => rfl
    | cons a t =>
      simp only [runeCountLoop]
      rw [decode_ascii a t (hs a (List.mem_cons_self a t))]
      simp only [List.drop_succ_cons, List.drop_zero, List.length_cons]
      rw [ih t (by simpa using hfuel) (fun b hb => hs b (List.mem_cons_of_mem a hb))]
      omega

/-- Claim C2, amended: with lengths counted in bytes (Go `len`), for an
accepted response (status 200, no error object, first content block `c0`)
and `t` the text of `c0` after `strings.TrimSpace`: if `t` is longer than 72
bytes the returned message has exactly 72 bytes, ends in `"..."` and starts
with the first 69 bytes of `t`; otherwise the returned message is `t`
itself; and when `t` holds ASCII bytes only, `t` and the returned message
have as many characters as bytes. -/
theorem generateCommitMessage_truncation {W : Type} (sys : Sys W) (diff filePath : GoString)
    (w w1 : W) (resp : HttpResponse) (body : GoString) (apiResp : AnthropicResponse)
    (c0 : Content) (cs : List Content)
    (hrecv : Receives sys diff filePath w resp body w1)
    (hstatus : resp.StatusCode = 200)
    (hdecode : sys.jsonUnmarshal body = .ok apiResp)
    (herr : apiResp.Error = none)
    (hcontent : apiResp.Content = c0 :: cs) :
    (generateCommitMessage sys diff filePath w).1.2 = none ∧
    (72 < (TrimSpace c0.Text).length →
      (generateCommitMessage sys diff filePath w).1.1.length = 72 ∧
      (generateCommitMessage sys diff filePath w).1.1.drop 69 = [46, 46, 46] ∧
      (generateCommitMessage sys diff filePath w).1.1.take 69 = (TrimSpace c0.Text).take 69) ∧
    ((TrimSpace c0.Text).length ≤ 72 →
      (generateCommitMessage sys diff filePath w).1.1 = TrimSpace c0.Text) ∧
    ((∀ b ∈ TrimSpace c0.Text, b < 0x80) →
      RuneCountInString (TrimSpace c0.Text) = (TrimSpace c0.Text).length ∧
      RuneCountInString (generateCommitMessage sys diff filePath w).1.1
        = (generateCommitMessage sys diff filePath w).1.1.length) := by
  rw [generateCommitMessage_accepted sys diff filePath w w1 resp body apiResp c0 cs hrecv hstatus
    hdecode herr hcontent]
  refine ⟨rfl, ?_, ?_, ?_⟩
  · intro hlong
    have h69 : ((TrimSpace c0.Text).take 69).length = 69 := by
      rw [List.length_take]; omega
    simp only [maxCommitLength, ellipsis, Nat.reduceSub, gt_iff_lt, hlong, if_true]
    refine ⟨?_, ?_, ?_⟩
    · rw [List.length_append, h69]; rfl
    · rw [List.drop_append_of_le_length (by omega), List.drop_of_length_le (by omega)]; rfl
    · rw [List.take_append_of_le_length (by omega), List.take_take]; simp
  · intro hshort
    have : ¬ (72 < (TrimSpace c0.Text).length) := by omega
    simp [maxCommitLength, this]
  · intro hascii
    refine ⟨runeCountLoop_ascii _ _ (le_refl _) hascii, ?_⟩
    refine runeCountLoop_ascii _ _ (le_refl _) ?_
    intro b hb
    simp only [maxCommitLength, ellipsis, Nat.reduceSub] at hb
    split at hb
    · rcases List.mem_append.1 hb with h | h
      · exact hascii b (List.mem_of_mem_take h)
      · simp only [List.mem_cons, List.mem_singleton, List.not_mem_nil, or_false, or_self] at h
        omega
    · exact hascii b hb

/-- The sample service receives its response. -/
theorem sampleSys_receives (status : Int) (apiResp : AnthropicResponse) (diff filePath : GoString) :
    Receives (sampleSys status apiResp) diff filePath ()
      { StatusCode := status, Body := .ok [] } [] () :=
  ⟨[], { Method := "POST", URL := anthropicAPIURL, Body := [], Header := [] }, rfl, rfl, rfl,
    rfl⟩

/-- Witness of claim C2: a text of 73 bytes after trimming is returned as
its first 69 bytes followed by `"..."`, 72 bytes in all. -/
theorem generateCommitMessage_truncation_witness :
    72 < (TrimSpace longText).length ∧
    (generateCommitMessage (sampleSys 200 { Content := [{ Text := longText }], Error := none })
      [] [] ()).1.1.length = 72 ∧
    (generateCommitMessage (sampleSys 200 { Content := [{ Text := longText }], Error := none })
      [] [] ()).1.1.drop 69 = [46, 46, 46] :=
  have hlong : 72 < (TrimSpace longText).length := by decide
  have h := (generateCommitMessage_truncation
    (sampleSys 200 { Content := [{ Text := longText }], Error := none })
    [] [] () () { StatusCode := 200, Body := .ok [] } []
    { Content := [{ Text := longText }], Error := none } { Text := longText } []
    (sampleSys_receives _ _ _ _) rfl rfl rfl rfl).2.1 hlong
  ⟨hlong, h.1, h.2.1⟩

/-- Counterexample to claim C2: the accepted text of 37 letters `é` has 37
characters, at most 72, and 74 bytes; it is not returned unchanged but cut to
its first 69 bytes and `"..."`, which is 72 bytes and 38 characters, the
35th letter being split. -/
theorem generateCommitMessage_cuts_short_text :
    RuneCountInString (TrimSpace (accented 37)) = 37 ∧
    (generateCommitMessage (sampleSys 200 { Content := [{ Text := accented 37 }], Error := none })
      [] [] ()).1 = ((accented 37).take 69 ++ [46, 46, 46], none) ∧
    (generateCommitMessage (sampleSys 200 { Content := [{ Text := accented 37 }], Error := none })
      [] [] ()).1.1 ≠ TrimSpace (accented 37) ∧
    RuneCountInString (generateCommitMessage
      (sampleSys 200 { Content := [{ Text := accented 37 }], Error := none }) [] [] ()).1.1 = 38 := by
  decide

/-! ## `strings.TrimSpace` leaves no white space at either end -/

theorem asciiSpace_lt {c : Nat} (h : asciiSpace c = true) : c < 0x80 ∧ IsSpace c = true := by
  simp only [asciiSpace, Bool.or_eq_true, beq_iff_eq] at h
  rcases h with ((((h | h) | h) | h) | h) | h <;> subst h <;> decide

theorem decode_size_pos (a : Nat) (t : GoString) : 1 ≤ (DecodeRuneInString (a :: t)).2 := by
  unfold DecodeRuneInString
  simp only []
  repeat' split
  all_goals simp

theorem take_head {α : Type} (u : List α) (k : Nat) (b : α) (h : (u.take k).head? = some b) :
    u.head? = some b := by
  cases u with
  | nil => simp at h
  | cons x u =>
    cases k with
    | zero => simp at h
    | succ k => simpa using h

theorem trimLeftLoop_head (fuel : Nat) (s : GoString) (b : Nat)
    (h : (trimLeftLoop IsSpace fuel s).head? = some b) : asciiSpace b = false := by
  induction fuel generalizing s with
  | zero => simp [trimLeftLoop] at h
  | succ n ih =>
    cases s with
    | nil => simp [trimLeftLoop] at h
    | cons c t =>
      simp only [trimLeftLoop] at h
      split at h
      · exact ih _ h
      · next hns =>
        simp only [List.head?_cons, Option.some.injEq] at h
        subst h
        by_contra hsp
        simp only [Bool.not_eq_false] at hsp
        obtain ⟨hlt, hspace⟩ := asciiSpace_lt hsp
        rw [decode_ascii c t hlt] at hns
        exact hns hspace

theorem TrimRightFunc_eq_take (s : GoString) (f : Nat → Bool) :
    ∃ k, TrimRightFunc s f = s.take k := by
  unfold TrimRightFunc
  simp only []
  split
  · exact ⟨_, rfl⟩
  · exact ⟨_, rfl⟩

theorem trimSpaceRight_eq_take (r : GoString) : ∃ k, trimSpaceRight r = r.reverse.take k := by
  induction r with
  | nil => exact ⟨0, rfl⟩
  | cons c rest ih =>
    simp only [trimSpaceRight]
    split
    · exact TrimRightFunc_eq_take _ _
    · split
      · obtain ⟨k, hk⟩ := ih
        refine ⟨min k rest.reverse.length, ?_⟩
        rw [hk, List.reverse_cons, List.take_append_of_le_length (Nat.min_le_right _ _)]
        rw [List.take_eq_take]
        simp
      · exact ⟨(c :: rest).reverse.length, by simp⟩

/-- The text returned by `strings.TrimSpace` does not start with an ASCII
white-space byte. -/
theorem TrimSpace_head (s : GoString) (b : Nat) (h : (TrimSpace s).head? = some b) :
    asciiSpace b = false := by
  induction s with
  | nil => simp [TrimSpace] at h
  | cons c rest ih =>
    simp only [TrimSpace] at h
    split at h
    · obtain ⟨k, hk⟩ := TrimRightFunc_eq_take (TrimLeftFunc (c :: rest) IsSpace) IsSpace
      rw [TrimFunc, hk] at h
      exact trimLeftLoop_head _ _ b (take_head _ _ _ h)
    · split at h
      · exact ih h
      · next hns =>
        obtain ⟨k, hk⟩ := trimSpaceRight_eq_take (c :: rest).reverse
        rw [hk, List.reverse_reverse] at h
        have := take_head _ _ _ h
        simp only [List.head?_cons, Option.some.injEq] at this
        subst this
        simpa using hns

theorem first_of_small (a : Nat) (h1 : ¬ first a ≥ 0xF0) (h2 : first a &&& 7 ≤ 2) :
    first a = 0x02 := by
  have hc : first a = 0xF0 ∨ first a = 0xF1 ∨ first a = 0x02 ∨ first a = 0x13 ∨ first a = 0x03
      ∨ first a = 0x23 ∨ first a = 0x34 ∨ first a = 0x04 ∨ first a = 0x44 := by
    unfold first
    repeat' split
    all_goals simp
  rcases hc with h | h | h | h | h | h | h | h | h <;> rw [h] at h1 h2 <;>
    first
      | exact h
      | exact absurd h2 (by decide)
      | exact absurd h1 (by decide)

/-- The width returned by `utf8.DecodeRuneInString` on a non-empty string:
1, or the length of a checked encoding whose last byte is a continuation
byte. -/
theorem decode_cases (a : Nat) (t : GoString) :
    (DecodeRuneInString (a :: t)).2 = 1 ∨
    ((DecodeRuneInString (a :: t)).2 = 2 ∧ 2 ≤ (a :: t).length ∧ 0x80 ≤ t.getD 0 0) ∨
    ((DecodeRuneInString (a :: t)).2 = 3 ∧ 3 ≤ (a :: t).length ∧ 0x80 ≤ t.getD 1 0) ∨
    ((DecodeRuneInString (a :: t)).2 = 4 ∧ 4 ≤ (a :: t).length ∧ 0x80 ≤ t.getD 2 0) := by
  unfold DecodeRuneInString
  simp only []
  split
  · left; rfl
  · next hx =>
    split
    · left; rfl
    · next hlen =>
      split
      · left; rfl
      · next hacc =>
        split
        · next hsz =>
          right; left
          have hf := first_of_small a hx hsz
          rw [hf] at hlen hacc
          simp only [Bool.or_eq_true, decide_eq_true_eq, not_or, not_lt] at hacc
          refine ⟨rfl, ?_, ?_⟩
          · have : (0x02 &&& 7 : Nat) = 2 := by decide
            omega
          · have : (acceptRanges (0x02 >>> 4)).1 = 0x80 := by decide
            omega
        · next hsz =>
          split
          · left; rfl
          · next h2 =>
            simp only [Bool.or_eq_true, decide_eq_true_eq, not_or, not_lt] at h2
            split
            · right; right; left
              exact ⟨rfl, by omega, h2.1⟩
            · next hsz3 =>
              split
              · left; rfl
              · next h3 =>
                simp only [Bool.or_eq_true, decide_eq_true_eq, not_or, not_lt] at h3
                right; right; right
                exact ⟨rfl, by omega, h3.1⟩

/-- The bytes of a rune that does not start with an ASCII byte end with a
byte that is not ASCII. -/
theorem decode_take_last (a : Nat) (t : GoString) (ha : 0x80 ≤ a) (b : Nat)
    (hb : ((a :: t).take (DecodeRuneInString (a :: t)).2).getLast? = some b) : 0x80 ≤ b := by
  rcases decode_cases a t with h | ⟨h, hl, hc⟩ | ⟨h, hl, hc⟩ | ⟨h, hl, hc⟩
  · rw [h] at hb
    simp only [List.take_succ_cons, List.take_zero, List.getLast?_singleton,
      Option.some.injEq] at hb
    omega
  · rw [h] at hb
    rcases t with _ | ⟨s1, t⟩
    · simp at hl
    · simp at hb hc
      omega
  · rw [h] at hb
    rcases t with _ | ⟨s1, _ | ⟨s2, t⟩⟩
    · simp at hl
    · simp at hl
    · simp at hb hc
      omega
  · rw [h] at hb
    rcases t with _ | ⟨s1, _ | ⟨s2, _ | ⟨s3, t⟩⟩⟩
    · simp at hl
    · simp at hl
    · simp at hl
    · simp at hb hc
      omega

theorem scanBack_le (s : GoString) (lim : Int) (fuel : Nat) (start : Int) :
    scanBack s lim fuel start ≤ start := by
  induction fuel generalizing start with
  | zero => simp [scanBack]
  | succ n ih =>
    simp only [scanBack]
    split
    · split
      · exact le_refl _
      · have := ih (start - 1)
        omega
    · exact le_refl _

/-- The rune returned by `utf8.DecodeLastRuneInString` on a non-empty string
has a width of at least one byte, and is the byte at which it starts when that
byte is ASCII. -/
theorem decodeLast_spec (s : GoString) (hs : s ≠ []) :
    1 ≤ (DecodeLastRuneInString s).2 ∧
    (s.getD (s.length - (DecodeLastRuneInString s).2) 0 < 0x80 →
      (DecodeLastRuneInString s).1 = s.getD (s.length - (DecodeLastRuneInString s).2) 0) := by
  have hlen : 0 < s.length := List.length_pos.2 hs
  unfold DecodeLastRuneInString
  simp only []
  split
  · next h0 => omega
  · split
    · exact ⟨le_refl _, fun _ => rfl⟩
    · next hr =>
      generalize hst : scanBack s (if (s.length : Int) - 4 < 0 then 0 else (s.length : Int) - 4) 4
        ((s.length : Int) - 2) = st0
      have hle : st0 ≤ (s.length : Int) - 2 := hst ▸ scanBack_le _ _ _ _
      generalize hst1 : (if st0 < 0 then 0 else st0) = st
      have hst_nonneg : 0 ≤ st := by rw [← hst1]; split <;> omega
      have hst_lt : st < s.length := by rw [← hst1]; split <;> omega
      have hdrop : s.drop st.toNat = s.getD st.toNat 0 :: s.drop (st.toNat + 1) := by
        have hlt : st.toNat < s.length := by omega
        rw [List.getD_eq_getElem?_getD, List.getElem?_eq_getElem hlt]
        simp
      split
      · next hne =>
        refine ⟨le_refl _, fun h => ?_⟩
        simp only [RuneSelf] at hr
        simp only [Nat.sub_self, Nat.add_sub_cancel] at h
        exact absurd h hr
      · next heq =>
        simp only [ne_eq, Decidable.not_not] at heq
        rw [hdrop] at heq ⊢
        have hpos := decode_size_pos (s.getD st.toNat 0) (s.drop (st.toNat + 1))
        refine ⟨hpos, fun h => ?_⟩
        have hidx : s.length - (DecodeRuneInString (s.getD st.toNat 0 :: s.drop (st.toNat + 1))).2
            = st.toNat := by omega
        rw [hidx] at h ⊢
        rw [decode_ascii _ _ h]

/-- The index returned by `lastIndexFunc`, when not `-1`, is the index of a
byte of `u` that, if ASCII, does not satisfy `f`. -/
theorem lastIndexLoop_spec (f : Nat → Bool) (u : GoString) (fuel e : Nat) (he : e ≤ u.length) :
    lastIndexLoop f u fuel e = -1 ∨
    (0 ≤ lastIndexLoop f u fuel e ∧ (lastIndexLoop f u fuel e).toNat < u.length ∧
      (u.getD (lastIndexLoop f u fuel e).toNat 0 < 0x80 →
        f (u.getD (lastIndexLoop f u fuel e).toNat 0) = false)) := by
  induction fuel generalizing e with
  | zero => left; rfl
  | succ n ih =>
    simp only [lastIndexLoop]
    split
    · next hpos =>
      have hne : u.take e ≠ [] := by
        intro h
        have := congrArg List.length h
        simp only [List.length_take, List.length_nil] at this
        omega
      obtain ⟨hsz, hascii⟩ := decodeLast_spec (u.take e) hne
      split
      · exact ih _ (by omega)
      · next hf =>
        right
        have hlt : e - (DecodeLastRuneInString (u.take e)).2 < e := by omega
        refine ⟨by omega, by simp only [Int.toNat_ofNat]; omega, ?_⟩
        simp only [Int.toNat_ofNat]
        have hget : (u.take e).getD ((u.take e).length - (DecodeLastRuneInString (u.take e)).2) 0
            = u.getD (e - (DecodeLastRuneInString (u.take e)).2) 0 := by
          rw [List.length_take, Nat.min_eq_left he]
          simp only [List.getD_eq_getElem?_getD]
          rw [List.getElem?_take_of_lt hlt]
        rw [hget] at hascii
        intro hb
        rw [← hascii hb]
        simpa using hf
    · left; rfl

theorem not_asciiSpace_of_ge {b : Nat} (h : 0x80 ≤ b) : asciiSpace b = false := by
  by_contra hsp
  simp only [Bool.not_eq_false] at hsp
  have := (asciiSpace_lt hsp).1
  omega

theorem not_asciiSpace_of_not_IsSpace {b : Nat} (h : IsSpace b = false) :
    asciiSpace b = false := by
  by_contra hsp
  simp only [Bool.not_eq_false] at hsp
  rw [(asciiSpace_lt hsp).2] at h
  exact absurd h (by simp)

/-- The text returned by `strings.TrimRightFunc` for `unicode.IsSpace` does
not end with an ASCII white-space byte. -/
theorem TrimRightFunc_last (u : GoString) (b : Nat)
    (h : (TrimRightFunc u IsSpace).getLast? = some b) : asciiSpace b = false := by
  unfold TrimRightFunc at h
  simp only [] at h
  rcases lastIndexLoop_spec IsSpace u u.length u.length (le_refl _) with hi | ⟨h0, hlt, hsp⟩
  · rw [hi] at h
    simp at h
  · generalize lastIndexLoop IsSpace u u.length u.length = i at h h0 hlt hsp
    have hdrop : u.drop i.toNat = u.getD i.toNat 0 :: u.drop (i.toNat + 1) := by
      rw [List.getD_eq_getElem?_getD, List.getElem?_eq_getElem hlt]
      simp
    split at h
    · next hc =>
      simp only [Bool.and_eq_true, decide_eq_true_eq, RuneSelf] at hc
      rw [List.take_add, hdrop] at h
      have hpos := decode_size_pos (u.getD i.toNat 0) (u.drop (i.toNat + 1))
      have hne : (u.getD i.toNat 0 :: u.drop (i.toNat + 1)).take
          (DecodeRuneInString (u.getD i.toNat 0 :: u.drop (i.toNat + 1))).2 ≠ [] := by
        intro hnil
        have := congrArg List.length hnil
        simp only [List.length_take, List.length_cons, List.length_nil] at this
        omega
      rw [List.getLast?_append_of_ne_nil _ hne] at h
      exact not_asciiSpace_of_ge (decode_take_last _ _ hc.2 b h)
    · next hc =>
      simp only [Bool.and_eq_true, decide_eq_true_eq, RuneSelf, not_and, not_le] at hc
      have hlow := hc h0
      have htn : (i + 1).toNat = i.toNat + 1 := by omega
      rw [htn, List.take_add, hdrop] at h
      simp only [List.take_succ_cons, List.take_zero] at h
      rw [List.getLast?_append_of_ne_nil _ (by simp)] at h
      simp only [List.getLast?_singleton, Option.some.injEq] at h
      subst h
      exact not_asciiSpace_of_not_IsSpace (hsp hlow)

theorem trimSpaceRight_last (r : GoString) (b : Nat)
    (h : (trimSpaceRight r).getLast? = some b) : asciiSpace b = false := by
  induction r with
  | nil => simp [trimSpaceRight] at h
  | cons c rest ih =>
    simp only [trimSpaceRight] at h
    split at h
    · exact TrimRightFunc_last _ b h
    · split at h
      · exact ih h
      · next hns =>
        rw [List.reverse_cons, List.getLast?_append_of_ne_nil _ (by simp)] at h
        simp only [List.getLast?_singleton, Option.some.injEq] at h
        subst h
        simpa using hns

/-- The text returned by `strings.TrimSpace` does not end with an ASCII
white-space byte. -/
theorem TrimSpace_last (s : GoString) (b : Nat) (h : (TrimSpace s).getLast? = some b) :
    asciiSpace b = false := by
  induction s with
  | nil => simp [TrimSpace] at h
  | cons c rest ih =>
    simp only [TrimSpace] at h
    split at h
    · exact TrimRightFunc_last _ b h
    · split at h
      · exact ih h
      · exact trimSpaceRight_last _ b h

/-- Whatever the service answers, the message returned by
`generateCommitMessage` neither starts nor ends with an ASCII white-space
byte. -/
theorem message_ends_not_space {W : Type} (sys : Sys W) (diff filePath : GoString) (w : W)
    (b : Nat) :
    ((generateCommitMessage sys diff filePath w).1.1.head? = some b →
      b ≠ 10 ∧ b ≠ 13 ∧ asciiSpace b = false) ∧
    ((generateCommitMessage sys diff filePath w).1.1.getLast? = some b →
      b ≠ 10 ∧ b ≠ 13 ∧ asciiSpace b = false) := by
  have hnl : asciiSpace b = false → b ≠ 10 ∧ b ≠ 13 ∧ asciiSpace b = false := by
    intro h
    refine ⟨?_, ?_, h⟩ <;> (intro hb; subst hb; simp [asciiSpace] at h)
  rcases generateCommitMessage_trimmed sys diff filePath w with h | ⟨t, h⟩
  · rw [h]; simp
  · rw [h]
    simp only [maxCommitLength, ellipsis, Nat.reduceSub]
    split
    · next hlong =>
      refine ⟨fun hb => hnl ?_, fun hb => hnl ?_⟩
      · have hb2 : ((TrimSpace t).take 69).head? = some b := by
          cases htk : (TrimSpace t).take 69 with
          | nil =>
            have := congrArg List.length htk
            simp only [List.length_take, List.length_nil] at this
            omega
          | cons x xs => rw [htk] at hb; simpa using hb
        exact TrimSpace_head t b (take_head _ _ _ hb2)
      · simp at hb
        subst hb
        rfl
    · exact ⟨fun hb => hnl (TrimSpace_head t b hb), fun hb => hnl (TrimSpace_last t b hb)⟩

/-- Claim C10, amended: for an accepted response (status 200, no error
object, first content block `c0`) the returned message neither starts nor
ends with a line break (`\n`, `\r`) or another ASCII white-space byte, and
it contains a line break exactly when the returned part of the text of `c0`
after `strings.TrimSpace` contains one: that whole text when it has at most
72 bytes, its first 69 bytes otherwise. -/
theorem generateCommitMessage_line_breaks {W : Type} (sys : Sys W) (diff filePath : GoString)
    (w w1 : W) (resp : HttpResponse) (body : GoString) (apiResp : AnthropicResponse)
    (c0 : Content) (cs : List Content)
    (hrecv : Receives sys diff filePath w resp body w1)
    (hstatus : resp.StatusCode = 200)
    (hdecode : sys.jsonUnmarshal body = .ok apiResp)
    (herr : apiResp.Error = none)
    (hcontent : apiResp.Content = c0 :: cs) :
    (∀ c, ((generateCommitMessage sys diff filePath w).1.1.head? = some c ∨
        (generateCommitMessage sys diff filePath w).1.1.getLast? = some c) →
      c ≠ 10 ∧ c ≠ 13 ∧ asciiSpace c = false) ∧
    (∀ c, c = 10 ∨ c = 13 →
      (c ∈ (generateCommitMessage sys diff filePath w).1.1 ↔
        c ∈ (if 72 < (TrimSpace c0.Text).length then (TrimSpace c0.Text).take 69
          else TrimSpace c0.Text))) := by
  refine ⟨?_, ?_⟩
  · intro c hc
    rcases hc with hc | hc
    · exact (message_ends_not_space sys diff filePath w c).1 hc
    · exact (message_ends_not_space sys diff filePath w c).2 hc
  · intro c hc
    rw [generateCommitMessage_accepted sys diff filePath w w1 resp body apiResp c0 cs hrecv
      hstatus hdecode herr hcontent]
    simp only [maxCommitLength, ellipsis, Nat.reduceSub, gt_iff_lt]
    split
    · rw [List.mem_append]
      constructor
      · intro h
        rcases h with h | h
        · exact h
        · simp only [List.mem_cons, List.mem_singleton, List.not_mem_nil, or_false, or_self] at h
          omega
      · exact fun h => Or.inl h
    · exact Iff.rfl

/-- Witness of claim C10: the line break of the accepted text `"a\nb"` is in
the returned message. -/
theorem generateCommitMessage_line_breaks_witness :
    10 ∈ (generateCommitMessage
      (sampleSys 200 { Content := [{ Text := brokenText }], Error := none }) [] [] ()).1.1 :=
  ((generateCommitMessage_line_breaks
    (sampleSys 200 { Content := [{ Text := brokenText }], Error := none })
    [] [] () () { StatusCode := 200, Body := .ok [] } []
    { Content := [{ Text := brokenText }], Error := none } { Text := brokenText } []
    (sampleSys_receives _ _ _ _) rfl rfl rfl rfl).2 10 (Or.inl rfl)).2 (by decide)

/-- Claim C9: once a response has been received and its body read,
`generateCommitMessage` fails exactly when the status is not 200, or the body
does not decode, or the decoded response has an error object or an empty
content list; a status other than 200 is reported with the status and the raw
body whatever the body holds, a service error object (status 200) with its
type and message whatever the content list, and an empty content list (status
200, no error object) as an empty response. -/
theorem generateCommitMessage_response {W : Type} (sys : Sys W) (diff filePath : GoString)
    (w w1 : W) (resp : HttpResponse) (body : GoString)
    (hrecv : Receives sys diff filePath w resp body w1) :
    ((generateCommitMessage sys diff filePath w).1.2 ≠ none ↔
      (resp.StatusCode ≠ 200 ∨ (∃ err, sys.jsonUnmarshal body = .error err) ∨
        ∃ apiResp, sys.jsonUnmarshal body = .ok apiResp ∧
          (apiResp.Error ≠ none ∨ apiResp.Content = []))) ∧
    (resp.StatusCode ≠ 200 →
      (generateCommitMessage sys diff filePath w).1 =
        ([], some (.errorf "API error %d: %s" [.int resp.StatusCode, .str body]))) ∧
    (∀ apiResp e, resp.StatusCode = 200 → sys.jsonUnmarshal body = .ok apiResp →
      apiResp.Error = some e →
      (generateCommitMessage sys diff filePath w).1 =
        ([], some (.errorf "%s: %s" [.str e.Kind, .str e.Message]))) ∧
    (∀ apiResp, resp.StatusCode = 200 → sys.jsonUnmarshal body = .ok apiResp →
      apiResp.Error = none → apiResp.Content = [] →
      (generateCommitMessage sys diff filePath w).1 =
        ([], some (.errorf "empty response" []))) := by
  obtain ⟨jsonData, req, hj, hr, hd, hb⟩ := hrecv
  refine ⟨?_, ?_, ?_, ?_⟩
  · by_cases hstatus : resp.StatusCode = 200
    · cases hdecode : sys.jsonUnmarshal body with
      | error err => simp [generateCommitMessage, hj, hr, hd, hb, hstatus, hdecode]
      | ok apiResp =>
        cases herr : apiResp.Error with
        | some e => simp [generateCommitMessage, hj, hr, hd, hb, hstatus, hdecode, herr]
        | none =>
          cases hcontent : apiResp.Content with
          | nil => simp [generateCommitMessage, hj, hr, hd, hb, hstatus, hdecode, herr, hcontent]
          | cons c0 cs =>
            simp [generateCommitMessage, hj, hr, hd, hb, hstatus, hdecode, herr, hcontent]
    · simp [generateCommitMessage, hj, hr, hd, hb, hstatus]
  · intro hstatus
    simp [generateCommitMessage, hj, hr, hd, hb, hstatus]
  · intro apiResp e hstatus hdecode herr
    simp [generateCommitMessage, hj, hr, hd, hb, hstatus, hdecode, herr]
  · intro apiResp hstatus hdecode herr hcontent
    simp [generateCommitMessage, hj, hr, hd, hb, hstatus, hdecode, herr, hcontent]

/-- Witness of claim C9: a response with status 500 whose body decodes to an
error object is reported by its status. -/
theorem generateCommitMessage_response_witness :
    (generateCommitMessage (sampleSys 500 { Content := [], Error := some { Kind := [], Message := [] } })
      [] [] ()).1 = ([], some (.errorf "API error %d: %s" [.int 500, .str []])) :=
  (generateCommitMessage_response
    (sampleSys 500 { Content := [], Error := some { Kind := [], Message := [] } }) [] [] () ()
    { StatusCode := 500, Body := .ok [] } [] (sampleSys_receives _ _ _ _)).2.1 (by decide)

/-- Counterexample to claim C10: the accepted text `"Add x\n\nBody"` is
returned with its two line breaks. -/
theorem generateCommitMessage_multiline :
    (generateCommitMessage (sampleSys 200 { Content := [{ Text := multilineText }], Error := none })
      [] [] ()).1 = ([65, 100, 100, 32, 120, 10, 10, 66, 111, 100, 121], none) ∧
    10 ∈ (generateCommitMessage
      (sampleSys 200 { Content := [{ Text := multilineText }], Error := none }) [] [] ()).1.1 := by
  decide

/-! ## The unit processor -/

/-- Claim C4: `processFile` returns a `FileCommit` for `filePath` in every
case: with the error of `getFileDiff` and empty diff and message when diff
resolution fails; with the diff and the error of `generateCommitMessage` and
an empty message when synthesis fails; with diff, message and no error when
both succeed. -/
theorem processFile_result {W : Type} (d : UnitDeps W) (filePath : GoString) (w : W) :
    (processFile d filePath w).1.FilePath = filePath ∧
    (∀ diff err w1, d.getFileDiff filePath w = ((diff, some err), w1) →
      (processFile d filePath w).1 =
        { FilePath := filePath, Diff := [], CommitMessage := [], Error := some err }) ∧
    (∀ diff w1 msg err w2, d.getFileDiff filePath w = ((diff, none), w1) →
      d.generateCommitMessage diff filePath w1 = ((msg, some err), w2) →
      (processFile d filePath w).1 =
        { FilePath := filePath, Diff := diff, CommitMessage := [], Error := some err }) ∧
    (∀ diff w1 msg w2, d.getFileDiff filePath w = ((diff, none), w1) →
      d.generateCommitMessage diff filePath w1 = ((msg, none), w2) →
      (processFile d filePath w).1 =
        { FilePath := filePath, Diff := diff, CommitMessage := msg, Error := none }) := by
  refine ⟨?_, ?_, ?_, ?_⟩
  · unfold processFile
    repeat' split
    all_goals rfl
  · intro diff err w1 h
    simp [processFile, h]
  · intro diff w1 msg err w2 h1 h2
    simp [processFile, h1, h2]
  · intro diff w1 msg w2 h1 h2
    simp [processFile, h1, h2]

/-- Claim C5: when `getFileDiff` fails for `filePath`, `processFile` returns
the same result and world whatever function stands for
`generateCommitMessage`, the world is the one `getFileDiff` left, and a
counter of the calls of `generateCommitMessage` is unchanged. -/
theorem processFile_skips_synthesis {W : Type} (d : UnitDeps W) (filePath : GoString) (w : W)
    (hfail : (d.getFileDiff filePath w).1.2 ≠ none) :
    (∀ gen, processFile { d with generateCommitMessage := gen } filePath w
      = processFile d filePath w) ∧
    (processFile d filePath w).2 = (d.getFileDiff filePath w).2 ∧
    (∀ n, (processFile d.counting filePath (w, n)).2.2 = n) := by
  rcases hres : d.getFileDiff filePath w with ⟨⟨diff, err⟩, w1⟩
  rw [hres] at hfail
  cases err with
  | none => exact absurd rfl hfail
  | some e =>
    refine ⟨?_, ?_, ?_⟩
    · intro gen
      simp [processFile, hres]
    · simp [processFile, hres]
    · intro n
      simp [processFile, UnitDeps.counting, hres]

/-- Witness of claim C5: no call of the synthesizer is counted for the path
`"x"`, whose diff resolution fails. -/
theorem processFile_skips_synthesis_witness :
    (processFile sampleDeps.counting [120] ((), 0)).2.2 = 0 :=
  (processFile_skips_synthesis sampleDeps [120] () (by decide)).2.2 0

/-! ## The commit applier -/

theorem Event.stagedPairs_append (a b : List Event) :
    Event.stagedPairs (a ++ b) = Event.stagedPairs a ++ Event.stagedPairs b := by
  induction a with
  | nil => rfl
  | cons e rest ih => cases e <;> simp [Event.stagedPairs, ih]

theorem Event.stagedOk_append (a b : List Event) :
    Event.stagedOk (a ++ b) = Event.stagedOk a + Event.stagedOk b := by
  induction a with
  | nil => simp [Event.stagedOk]
  | cons e rest ih =>
    cases e with
    | printed o => simp [Event.stagedOk, ih]
    | staged p m err =>
      cases err with
      | none => simp [Event.stagedOk, ih]; omega
      | some e => simp [Event.stagedOk, ih]

theorem Event.visited_append (a b : List Event) :
    Event.visited (a ++ b) = Event.visited a ++ Event.visited b := by
  induction a with
  | nil => rfl
  | cons e rest ih =>
    cases e with
    | printed o => cases o <;> simp [Event.visited, ih]
    | staged p m err => simp [Event.visited, ih]

theorem displayLoop_cons_error {W : Type} (d : ApplyDeps W) (c : FileCommit)
    (rest : List FileCommit) (s f : Nat) (w : W) (err : GoError) (herr : c.Error = some err) :
    displayLoop d (c :: rest) s f w
      = displayLoop d rest s (f + 1) (d.emit (.errorLine err) (d.emit (.file c.FilePath) w)) := by
  simp [displayLoop, herr]

theorem displayLoop_cons_failed {W : Type} (d : ApplyDeps W) (c : FileCommit)
    (rest : List FileCommit) (s f : Nat) (w w1 : W) (err : GoError) (herr : c.Error = none)
    (hst : d.stageAndCommitFile c.FilePath c.CommitMessage
      (d.emit (.commitMsg c.CommitMessage) (d.emit (.file c.FilePath) w)) = (some err, w1)) :
    displayLoop d (c :: rest) s f w
      = displayLoop d rest s (f + 1) (d.emit .blank (d.emit (.failed err) w1)) := by
  simp [displayLoop, herr, hst]

theorem displayLoop_cons_ok {W : Type} (d : ApplyDeps W) (c : FileCommit)
    (rest : List FileCommit) (s f : Nat) (w w1 : W) (herr : c.Error = none)
    (hst : d.stageAndCommitFile c.FilePath c.CommitMessage
      (d.emit (.commitMsg c.CommitMessage) (d.emit (.file c.FilePath) w)) = (none, w1)) :
    displayLoop d (c :: rest) s f w = displayLoop d rest (s + 1) f (d.emit .blank w1) := by
  simp [displayLoop, herr, hst]

theorem recording_emit {W : Type} (d : ApplyDeps W) (o : Out) (w : W) (j : List Event) :
    d.recording.emit o (w, j) = (d.emit o w, j ++ [.printed o]) := rfl

theorem recording_stage {W : Type} (d : ApplyDeps W) (p m : GoString) (w w1 : W)
    (j : List Event) (err : Option GoError) (hst : d.stageAndCommitFile p m w = (err, w1)) :
    d.recording.stageAndCommitFile p m (w, j) = (err, (w1, j ++ [.staged p m err])) := by
  simp [ApplyDeps.recording, hst]

/-- The loop of `displayAndCommit` under a journal: what it appends to the
journal and how the counters move, from any counters, world and journal. -/
theorem displayLoop_recording {W : Type} (d : ApplyDeps W) (rs : List FileCommit)
    (s f : Nat) (w : W) (j : List Event) :
    ∃ ext, (displayLoop d.recording rs s f (w, j)).2.2 = j ++ ext ∧
      Event.stagedPairs ext
        = (rs.filter (fun c => c.Error.isNone)).map (fun c => (c.FilePath, c.CommitMessage)) ∧
      Event.visited ext = rs.map (fun c => c.FilePath) ∧
      Event.stagedOk ext ≤ rs.length ∧
      (displayLoop d.recording rs s f (w, j)).1.1 = s + Event.stagedOk ext ∧
      (displayLoop d.recording rs s f (w, j)).1.2 = f + (rs.length - Event.stagedOk ext) ∧
      (displayLoop d.recording rs s f (w, j)).1 = (displayLoop d rs s f w).1 ∧
      (displayLoop d.recording rs s f (w, j)).2.1 = (displayLoop d rs s f w).2 := by
  induction rs generalizing s f w j with
  | nil => exact ⟨[], by simp [displayLoop, Event.stagedPairs, Event.visited, Event.stagedOk]⟩
  | cons c rest ih =>
    cases herr : c.Error with
    | some err =>
      rw [displayLoop_cons_error d.recording c rest s f (w, j) err herr,
        displayLoop_cons_error d c rest s f w err herr]
      simp only [recording_emit]
      obtain ⟨ext, h1, h2, h3, h4, h5, h6, h7, h8⟩ :=
        ih s (f + 1) (d.emit (.errorLine err) (d.emit (.file c.FilePath) w))
          (j ++ [.printed (.file c.FilePath)] ++ [.printed (.errorLine err)])
      refine ⟨[.printed (.file c.FilePath), .printed (.errorLine err)] ++ ext, ?_⟩
      simp only [Event.stagedPairs_append, Event.visited_append, Event.stagedOk_append,
        Event.stagedPairs, Event.visited, Event.stagedOk, List.filter_cons, herr,
        Option.isNone_some, List.map_cons, List.length_cons, List.append_eq, List.nil_append,
        List.cons_append]
      simp only [List.append_assoc, List.cons_append, List.nil_append] at h1 h5 h6 h7 h8 ⊢
      refine ⟨h1, by simpa using h2, by simpa using h3, by omega, by omega, by omega, h7, h8⟩
    | none =>
      rcases hst : d.stageAndCommitFile c.FilePath c.CommitMessage
          (d.emit (.commitMsg c.CommitMessage) (d.emit (.file c.FilePath) w)) with ⟨serr, w1⟩
      have hrec := recording_stage d c.FilePath c.CommitMessage _ w1
        (j ++ [.printed (.file c.FilePath)] ++ [.printed (.commitMsg c.CommitMessage)]) serr hst
      cases serr with
      | some err =>
        rw [displayLoop_cons_failed d.recording c rest s f (w, j) _ err herr
            (by simp only [recording_emit]; exact hrec),
          displayLoop_cons_failed d c rest s f w w1 err herr hst]
        simp only [recording_emit]
        obtain ⟨ext, h1, h2, h3, h4, h5, h6, h7, h8⟩ :=
          ih s (f + 1) (d.emit .blank (d.emit (.failed err) w1))
            (j ++ [.printed (.file c.FilePath)] ++ [.printed (.commitMsg c.CommitMessage)]
              ++ [.staged c.FilePath c.CommitMessage (some err)] ++ [.printed (.failed err)]
              ++ [.printed .blank])
        refine ⟨[.printed (.file c.FilePath), .printed (.commitMsg c.CommitMessage),
          .staged c.FilePath c.CommitMessage (some err), .printed (.failed err),
          .printed .blank] ++ ext, ?_⟩
        simp only [Event.stagedPairs_append, Event.visited_append, Event.stagedOk_append,
          Event.stagedPairs, Event.visited, Event.stagedOk, List.filter_cons, herr,
          Option.isNone_none, List.map_cons, List.length_cons, List.append_eq, List.nil_append,
          List.cons_append]
        simp only [List.append_assoc, List.cons_append, List.nil_append] at h1 h5 h6 h7 h8 ⊢
        refine ⟨h1, by simpa using h2, by simpa using h3, by omega, by omega, by omega, h7, h8⟩
      | none =>
        rw [displayLoop_cons_ok d.recording c rest s f (w, j) _ herr
            (by simp only [recording_emit]; exact hrec),
          displayLoop_cons_ok d c rest s f w w1 herr hst]
        simp only [recording_emit]
        obtain ⟨ext, h1, h2, h3, h4, h5, h6, h7, h8⟩ :=
          ih (s + 1) f (d.emit .blank w1)
            (j ++ [.printed (.file c.FilePath)] ++ [.printed (.commitMsg c.CommitMessage)]
              ++ [.staged c.FilePath c.CommitMessage none] ++ [.printed .blank])
        refine ⟨[.printed (.file c.FilePath), .printed (.commitMsg c.CommitMessage),
          .staged c.FilePath c.CommitMessage none, .printed .blank] ++ ext, ?_⟩
        simp only [Event.stagedPairs_append, Event.visited_append, Event.stagedOk_append,
          Event.stagedPairs, Event.visited, Event.stagedOk, List.filter_cons, herr,
          Option.isNone_none, List.map_cons, List.length_cons, List.append_eq, List.nil_append,
          List.cons_append]
        simp only [List.append_assoc, List.cons_append, List.nil_append] at h1 h5 h6 h7 h8 ⊢
        refine ⟨h1, by simpa using h2, by simpa using h3, by omega, by omega, by omega, h7, h8⟩

/-- The function `displayAndCommit` under a journal, in terms of its loop. -/
theorem displayAndCommit_recording {W : Type} (d : ApplyDeps W) (results : List FileCommit)
    (w : W) :
    ∃ ext, (displayAndCommit d.recording results (w, [])).2.2
        = [.printed .blank] ++ ext ++ [.printed (.summary
            (displayAndCommit d results w).1.1 (displayAndCommit d results w).1.2)] ∧
      Event.stagedPairs ext
        = (results.filter (fun c => c.Error.isNone)).map (fun c => (c.FilePath, c.CommitMessage)) ∧
      Event.visited ext = results.map (fun c => c.FilePath) ∧
      Event.stagedOk ext ≤ results.length ∧
      (displayAndCommit d results w).1.1 = Event.stagedOk ext ∧
      (displayAndCommit d results w).1.2 = results.length - Event.stagedOk ext ∧
      (displayAndCommit d.recording results (w, [])).1 = (displayAndCommit d results w).1 := by
  obtain ⟨ext, h1, h2, h3, h4, h5, h6, h7, h8⟩ :=
    displayLoop_recording d results 0 0 (d.emit .blank w) [.printed .blank]
  refine ⟨ext, ?_, h2, h3, h4, ?_, ?_, ?_⟩
  · show (displayLoop d.recording results 0 0 (d.emit .blank w, [.printed .blank])).2.2
        ++ [.printed (.summary _ _)] = _
    rw [h1]
    simp only [displayAndCommit, ← h7]
    rfl
  · simp only [displayAndCommit, ← h7, h5]; omega
  · simp only [displayAndCommit, ← h7, h6]; omega
  · show (displayLoop d.recording results 0 0 (d.emit .blank w, [.printed .blank])).1 = _
    rw [h7]
    rfl

/-- The function `stageAndCommitFile` returns nil exactly when `git add` and
then `git commit` both succeed. -/
theorem stageAndCommitFile_ok_iff {W : Type} (sys : Sys W) (filePath message : GoString)
    (w : W) :
    (stageAndCommitFile sys filePath message w).1 = none ↔
      (sys.run [.lit "git", .lit "add", .val filePath] w).1 = none ∧
      (sys.run [.lit "git", .lit "commit", .lit "-m", .val message]
        (sys.run [.lit "git", .lit "add", .val filePath] w).2).1 = none := by
  unfold stageAndCommitFile
  rcases h1 : sys.run [.lit "git", .lit "add", .val filePath] w with ⟨e1, w1⟩
  cases e1 with
  | some err => simp
  | none =>
    rcases h2 : sys.run [.lit "git", .lit "commit", .lit "-m", .val message] w1 with ⟨e2, w2⟩
    cases e2 <;> simp [h2]

/-- Claim C6: `displayAndCommit` names every result once, in input order, and
ends with `successCount + failCount` equal to the number of results, where
`successCount` is the number of calls of `stageAndCommitFile` that returned
nil (it is called for the results without error, and returns nil when
`git add` and `git commit` both succeed) and `failCount` counts the other
results; the journal does not change the counters. -/
theorem displayAndCommit_counts {W : Type} (d : ApplyDeps W) (results : List FileCommit)
    (w : W) :
    (displayAndCommit d results w).1.1 + (displayAndCommit d results w).1.2 = results.length ∧
    Event.visited (displayAndCommit d.recording results (w, [])).2.2
      = results.map (fun c => c.FilePath) ∧
    (displayAndCommit d results w).1.1
      = Event.stagedOk (displayAndCommit d.recording results (w, [])).2.2 ∧
    (displayAndCommit d results w).1.2
      = results.length - Event.stagedOk (displayAndCommit d.recording results (w, [])).2.2 ∧
    (Event.stagedPairs (displayAndCommit d.recording results (w, [])).2.2).length
      = results.countP (fun c => c.Error.isNone) ∧
    (displayAndCommit d.recording results (w, [])).1 = (displayAndCommit d results w).1 ∧
    (∀ (sys : Sys W) (filePath message : GoString) (w0 : W),
      (sys.applyDeps.stageAndCommitFile filePath message w0).1 = none ↔
        (sys.run [.lit "git", .lit "add", .val filePath] w0).1 = none ∧
        (sys.run [.lit "git", .lit "commit", .lit "-m", .val message]
          (sys.run [.lit "git", .lit "add", .val filePath] w0).2).1 = none) := by
  obtain ⟨ext, h1, h2, h3, h4, h5, h6, h7⟩ := displayAndCommit_recording d results w
  have hv : Event.visited (displayAndCommit d.recording results (w, [])).2.2
      = results.map (fun c => c.FilePath) := by
    rw [h1, Event.visited_append, Event.visited_append, h3]
    simp [Event.visited]
  have hok : Event.stagedOk (displayAndCommit d.recording results (w, [])).2.2
      = Event.stagedOk ext := by
    rw [h1, Event.stagedOk_append, Event.stagedOk_append]
    simp [Event.stagedOk]
  have hp : Event.stagedPairs (displayAndCommit d.recording results (w, [])).2.2
      = Event.stagedPairs ext := by
    rw [h1, Event.stagedPairs_append, Event.stagedPairs_append]
    simp [Event.stagedPairs]
  refine ⟨by omega, hv, by omega, by omega, ?_, h7, ?_⟩
  · rw [hp, h2, List.length_map, List.countP_eq_length_filter]
  · intro sys filePath message w0
    exact stageAndCommitFile_ok_iff sys filePath message w0

/-- Claim C7: the calls of `stageAndCommitFile` made by `displayAndCommit`
are, in order, exactly the `(FilePath, CommitMessage)` pairs of the results
without error, whatever `stageAndCommitFile` returns for each of them. -/
theorem displayAndCommit_staged {W : Type} (d : ApplyDeps W) (results : List FileCommit)
    (w : W) :
    Event.stagedPairs (displayAndCommit d.recording results (w, [])).2.2
      = (results.filter (fun c => c.Error.isNone)).map
          (fun c => (c.FilePath, c.CommitMessage)) := by
  obtain ⟨ext, h1, h2, -⟩ := displayAndCommit_recording d results w
  rw [h1, Event.stagedPairs_append, Event.stagedPairs_append, h2]
  simp [Event.stagedPairs]

/-! ## The concurrent orchestrator -/

namespace processFiles

theorem countP_set_of_getElem? {α : Type} (p : α → Bool) (l : List α) (i : Nat) (a b : α)
    (h : l[i]? = some a) :
    (l.set i b).countP p + (if p a then 1 else 0) = l.countP p + (if p b then 1 else 0) := by
  induction l generalizing i with
  | nil => simp at h
  | cons x l ih =>
    cases i with
    | zero =>
      simp only [List.getElem?_cons_zero, Option.some.injEq] at h
      subst h
      simp only [List.set_cons_zero, List.countP_cons]
      omega
    | succ i =>
      simp only [List.getElem?_cons_succ] at h
      have := ih i h
      simp only [List.set_cons_succ, List.countP_cons]
      omega

theorem sum_map_set_of_getElem? {α : Type} (g : α → Nat) (l : List α) (i : Nat) (a b : α)
    (h : l[i]? = some a) :
    ((l.set i b).map g).sum + g a = (l.map g).sum + g b := by
  induction l generalizing i with
  | nil => simp at h
  | cons x l ih =>
    cases i with
    | zero =>
      simp only [List.getElem?_cons_zero, Option.some.injEq] at h
      subst h
      simp only [List.set_cons_zero, List.map_cons, List.sum_cons]
      omega
    | succ i =>
      simp only [List.getElem?_cons_succ] at h
      have := ih i h
      simp only [List.set_cons_succ, List.map_cons, List.sum_cons]
      omega

theorem lt_length_of_getElem? {α : Type} (l : List α) (i : Nat) (a : α) (h : l[i]? = some a) :
    i < l.length := by
  by_contra hlt
  rw [List.getElem?_eq_none (by omega)] at h
  exact absurd h (by simp)

/-- The result of `processFile` carries the path it was called with. -/
theorem processFile_path {W : Type} (d : UnitDeps W) (filePath : GoString) (w : W) :
    (processFile d filePath w).1.FilePath = filePath := by
  unfold processFile
  repeat' split
  all_goals rfl

theorem wrapInt32_pred (x : Int) : wrapInt32 (wrapInt32 x - 1) = wrapInt32 (x - 1) := by
  unfold wrapInt32
  omega

theorem wrapInt32_of_range (x : Int) (h0 : 0 ≤ x) (h1 : x < 2 ^ 31) : wrapInt32 x = x := by
  unfold wrapInt32
  omega

theorem inv_init {W : Type} (d : UnitDeps W) (files : List GoString) : Inv d files (init files) where
  workers_len := by simp [init]
  results_len := by simp [init]
  main_bound := by simp [init]
  absent_iff := by
    intro j hj
    simp [init, spawned, List.getElem?_replicate, hj]
  wg_eq := by simp [init, active, List.countP_replicate]
  processing_eq := by simp [init, completed, List.countP_replicate]
  stored_result := by
    intro j p hp h1 h2
    simp only [init, List.getElem?_replicate] at hp
    split at hp
    · simp only [Option.some.injEq] at hp
      exact absurd hp.symm h1
    · exact absurd hp (by simp)
  returned_all := by simp [init]

end processFiles

namespace processFiles

theorem inv_step_main {W : Type} (d : UnitDeps W) (files : List GoString) (s s1 : State)
    (hinv : Inv d files s) (hstep : step d files s (.main : Action W) = some s1) :
    Inv d files s1 := by
  obtain ⟨hwl, hrl, hmb, hab, hwg, hpr, hsr, hra⟩ := hinv
  obtain ⟨pc, workers, results, wg, processing⟩ := s
  simp only at hwl hrl hmb hab hwg hpr hsr hra
  cases pc with
  | loop i =>
    simp only [step] at hstep
    split at hstep
    · next hlt =>
      simp only [Option.some.injEq] at hstep
      subst hstep
      refine ⟨hwl, hrl, hlt, ?_, ?_, hpr, hsr, by simp⟩
      · simpa [spawned] using hab
      · simp only [active] at hwg ⊢
        simp only [hwg]; omega
    · next hge =>
      simp only [Option.some.injEq] at hstep
      subst hstep
      have hi : i = files.length := by omega
      refine ⟨hwl, hrl, trivial, ?_, ?_, hpr, hsr, by simp⟩
      · simpa [spawned, hi] using hab
      · simpa [active] using hwg
  | launch i =>
    simp only [step, Option.some.injEq] at hstep
    subst hstep
    have hmb : i < files.length := hmb
    have hold : workers[i]? = some .absent := (hab i hmb).2 (by simp [spawned])
    have hcnt := countP_set_of_getElem?
      (fun p => p == WorkerPc.start || p == WorkerPc.stored || p == WorkerPc.counted)
      workers i .absent .start hold
    have hcmp := countP_set_of_getElem?
      (fun p => p == WorkerPc.counted || p == WorkerPc.exited) workers i .absent .start hold
    refine ⟨by simpa using hwl, hrl, by simpa using hmb, ?_, ?_, ?_, ?_, by simp⟩
    · intro j hj
      by_cases hji : i = j
      · subst hji
        simp [spawned, List.getElem?_set, hwl, hj]
      · have := hab j hj
        simp only [spawned] at this ⊢
        rw [List.getElem?_set_ne hji, this]
        omega
    · simp only [active] at hwg ⊢
      simp at hcnt
      simp only [hwg]; omega
    · simp only [completed] at hpr ⊢
      simp at hcmp
      rw [hcmp]; exact hpr
    · intro j p hp h1 h2
      by_cases hji : i = j
      · subst hji
        simp only [List.getElem?_set, hwl, hmb, if_true, Option.some.injEq] at hp
        exact absurd hp.symm h2
      · simp only [List.getElem?_set_ne hji] at hp
        exact hsr j p hp h1 h2
  | wait =>
    simp only [step] at hstep
    split at hstep
    · next hz =>
      simp only [Option.some.injEq] at hstep
      subst hstep
      refine ⟨hwl, hrl, trivial, ?_, ?_, hpr, hsr, ?_⟩
      · simpa [spawned] using hab
      · simpa [active] using hwg
      · intro _ j hj
        have hact : active ⟨.wait, workers, results, wg, processing⟩ = 0 := by
          have hwg0 : wg = (active ⟨.wait, workers, results, wg, processing⟩ : Int) + 0 := hwg
          omega
        simp only [active, List.countP_eq_zero] at hact
        have hjl : j < workers.length := by omega
        have hget : workers[j]? = some workers[j] := List.getElem?_eq_getElem hjl
        have hna : workers[j] ≠ .absent := by
          intro h
          rw [h] at hget
          have := (hab j hj).1 hget
          simp [spawned] at this
          omega
        have hnact := hact workers[j] (List.getElem_mem hjl)
        rw [hget]
        clear hget
        generalize workers[j] = p at hna hnact
        cases p <;> simp at hna hnact ⊢
    · exact absurd hstep (by simp)
  | returned => simp [step] at hstep

end processFiles

namespace processFiles

theorem absent_iff_set {n : Nat} (pc : MainPc) (workers : List WorkerPc) (idx : Nat)
    (a b : WorkerPc) (hold : workers[idx]? = some a) (ha : a ≠ .absent) (hb : b ≠ .absent)
    (hab : ∀ j, j < n → (workers[j]? = some .absent ↔ spawned n pc ≤ j)) :
    ∀ j, j < n → ((workers.set idx b)[j]? = some .absent ↔ spawned n pc ≤ j) := by
  intro j hj
  by_cases hji : idx = j
  · subst hji
    have hlt := lt_length_of_getElem? workers idx a hold
    rw [← hab idx hj, hold]
    simp only [List.getElem?_set, hlt, if_true, Option.some.injEq]
    exact ⟨fun h => absurd h hb, fun h => absurd h ha⟩
  · rw [List.getElem?_set_ne hji]
    exact hab j hj

theorem not_returned_of_worker (n : Nat) (pc : MainPc) (workers : List WorkerPc) (idx : Nat)
    (a : WorkerPc) (hold : workers[idx]? = some a) (ha : a ≠ .exited)
    (hwl : workers.length = n)
    (hra : pc = .returned → ∀ j, j < n → workers[j]? = some .exited) : pc ≠ .returned := by
  intro h
  have hlt := lt_length_of_getElem? workers idx a hold
  have := hra h idx (by omega)
  rw [hold] at this
  simp only [Option.some.injEq] at this
  exact ha this

theorem inv_step_worker {W : Type} (d : UnitDeps W) (files : List GoString) (s s1 : State)
    (idx : Nat) (w : W)
    (hinv : Inv d files s) (hstep : step d files s (.worker idx w) = some s1) :
    Inv d files s1 := by
  obtain ⟨hwl, hrl, hmb, hab, hwg, hpr, hsr, hra⟩ := hinv
  obtain ⟨pc, workers, results, wg, processing⟩ := s
  simp only at hwl hrl hmb hab hwg hpr hsr hra
  simp only [step] at hstep
  split at hstep
  · next hold =>
    simp only [Option.some.injEq] at hstep
    subst hstep
    have hlt := lt_length_of_getElem? workers idx _ hold
    have hcnt := countP_set_of_getElem?
      (fun p => p == WorkerPc.start || p == WorkerPc.stored || p == WorkerPc.counted)
      workers idx .start .stored hold
    have hcmp := countP_set_of_getElem?
      (fun p => p == WorkerPc.counted || p == WorkerPc.exited) workers idx .start .stored hold
    have hnr := not_returned_of_worker files.length pc workers idx _ hold (by simp) hwl hra
    refine ⟨by simpa using hwl, by simpa using hrl, hmb,
      absent_iff_set pc workers idx _ _ hold (by simp) (by simp) hab, ?_, ?_, ?_,
      fun h => absurd h hnr⟩
    · simp only [active] at hwg ⊢
      simp at hcnt
      rw [hcnt]; exact hwg
    · simp only [completed] at hpr ⊢
      simp at hcmp
      rw [hcmp]; exact hpr
    · intro j p hp h1 h2
      by_cases hji : idx = j
      · subst hji
        exact ⟨w, by simp [List.getElem?_set, hrl, hwl ▸ hlt]⟩
      · simp only [List.getElem?_set_ne hji] at hp ⊢
        exact hsr j p hp h1 h2
  · next hold =>
    simp only [Option.some.injEq] at hstep
    subst hstep
    have hlt := lt_length_of_getElem? workers idx _ hold
    have hcnt := countP_set_of_getElem?
      (fun p => p == WorkerPc.start || p == WorkerPc.stored || p == WorkerPc.counted)
      workers idx .stored .counted hold
    have hcmp := countP_set_of_getElem?
      (fun p => p == WorkerPc.counted || p == WorkerPc.exited) workers idx .stored .counted hold
    have hnr := not_returned_of_worker files.length pc workers idx _ hold (by simp) hwl hra
    have hle : List.countP (fun p => p == WorkerPc.counted || p == WorkerPc.exited)
        (workers.set idx .counted) ≤ (workers.set idx .counted).length := List.countP_le_length _
    refine ⟨by simpa using hwl, hrl, hmb,
      absent_iff_set pc workers idx _ _ hold (by simp) (by simp) hab, ?_, ?_, ?_,
      fun h => absurd h hnr⟩
    · simp only [active] at hwg ⊢
      simp at hcnt
      rw [hcnt]; exact hwg
    · simp only [completed] at hpr ⊢
      simp at hcmp
      rw [hcmp, hpr, wrapInt32_pred]
      congr 1
      push_cast
      ring
    · intro j p hp h1 h2
      by_cases hji : idx = j
      · subst hji
        exact hsr idx .stored hold (by simp) (by simp)
      · simp only [List.getElem?_set_ne hji] at hp
        exact hsr j p hp h1 h2
  · next hold =>
    simp only [Option.some.injEq] at hstep
    subst hstep
    have hlt := lt_length_of_getElem? workers idx _ hold
    have hcnt := countP_set_of_getElem?
      (fun p => p == WorkerPc.start || p == WorkerPc.stored || p == WorkerPc.counted)
      workers idx .counted .exited hold
    have hcmp := countP_set_of_getElem?
      (fun p => p == WorkerPc.counted || p == WorkerPc.exited) workers idx .counted .exited hold
    have hnr := not_returned_of_worker files.length pc workers idx _ hold (by simp) hwl hra
    refine ⟨by simpa using hwl, hrl, hmb,
      absent_iff_set pc workers idx _ _ hold (by simp) (by simp) hab, ?_, ?_, ?_,
      fun h => absurd h hnr⟩
    · simp only [active] at hwg ⊢
      simp at hcnt
      simp only [hwg]
      omega
    · simp only [completed] at hpr ⊢
      simp at hcmp
      rw [hcmp]; exact hpr
    · intro j p hp h1 h2
      by_cases hji : idx = j
      · subst hji
        exact hsr idx .counted hold (by simp) (by simp)
      · simp only [List.getElem?_set_ne hji] at hp
        exact hsr j p hp h1 h2
  · exact absurd hstep (by simp)

end processFiles

namespace processFiles

/-- Every step keeps the invariant. -/
theorem inv_step {W : Type} (d : UnitDeps W) (files : List GoString) (s s1 : State)
    (a : Action W) (hinv : Inv d files s) (hstep : step d files s a = some s1) :
    Inv d files s1 := by
  cases a with
  | main => exact inv_step_main d files s s1 hinv hstep
  | worker idx w => exact inv_step_worker d files s s1 idx w hinv hstep

theorem inv_run {W : Type} (d : UnitDeps W) (files : List GoString) (sched : List (Action W))
    (s s1 : State) (hinv : Inv d files s) (hrun : run d files s sched = some s1) :
    Inv d files s1 := by
  induction sched generalizing s with
  | nil =>
    simp only [run, Option.some.injEq] at hrun
    exact hrun ▸ hinv
  | cons a rest ih =>
    simp only [run] at hrun
    split at hrun
    · next s2 hs2 => exact ih s2 (inv_step d files s s2 a hinv hs2) hrun
    · exact absurd hrun (by simp)

/-- The invariant holds in every reachable state. -/
theorem inv_reachable {W : Type} (d : UnitDeps W) (files : List GoString) (s : State)
    (hs : Reachable d files s) : Inv d files s := by
  obtain ⟨sched, hrun⟩ := hs
  exact inv_run d files sched (init files) s (inv_init d files) hrun

/-- A step changes the counter `processing` only when it is the statement
`processing.Add(-1)` of a goroutine, which completes one more unit. -/
theorem step_processing {W : Type} (d : UnitDeps W) (files : List GoString) (s s1 : State)
    (a : Action W) (hinv : Inv d files s) (hstep : step d files s a = some s1) :
    (s1.processing = s.processing ∧ completed s1 = completed s) ∨
    (∃ idx w, a = .worker idx w ∧ s.workers[idx]? = some .stored ∧
      s1.processing = wrapInt32 (s.processing - 1) ∧ completed s1 = completed s + 1) := by
  obtain ⟨hwl, hrl, hmb, hab, hwg, hpr, hsr, hra⟩ := hinv
  obtain ⟨pc, workers, results, wg, processing⟩ := s
  simp only at hwl hrl hmb hab hwg hpr hsr hra
  cases a with
  | main =>
    left
    cases pc with
    | loop i =>
      simp only [step] at hstep
      split at hstep <;> (simp only [Option.some.injEq] at hstep; subst hstep; exact ⟨rfl, rfl⟩)
    | launch i =>
      simp only [step, Option.some.injEq] at hstep
      subst hstep
      refine ⟨rfl, ?_⟩
      have hmb : i < files.length := hmb
      have hold : workers[i]? = some .absent := (hab i hmb).2 (by simp [spawned])
      have hcmp := countP_set_of_getElem?
        (fun p => p == WorkerPc.counted || p == WorkerPc.exited) workers i .absent .start hold
      simp at hcmp
      simp only [completed]
      rw [hcmp]
    | wait =>
      simp only [step] at hstep
      split at hstep
      · simp only [Option.some.injEq] at hstep; subst hstep; exact ⟨rfl, rfl⟩
      · exact absurd hstep (by simp)
    | returned => simp [step] at hstep
  | worker idx w =>
    simp only [step] at hstep
    split at hstep
    · next hold =>
      left
      simp only [Option.some.injEq] at hstep
      subst hstep
      have hcmp := countP_set_of_getElem?
        (fun p => p == WorkerPc.counted || p == WorkerPc.exited) workers idx .start .stored hold
      simp at hcmp
      exact ⟨rfl, by simp only [completed]; rw [hcmp]⟩
    · next hold =>
      right
      simp only [Option.some.injEq] at hstep
      subst hstep
      have hcmp := countP_set_of_getElem?
        (fun p => p == WorkerPc.counted || p == WorkerPc.exited) workers idx .stored .counted hold
      simp at hcmp
      exact ⟨idx, w, rfl, hold, rfl, by simp only [completed]; rw [hcmp]⟩
    · next hold =>
      left
      simp only [Option.some.injEq] at hstep
      subst hstep
      have hcmp := countP_set_of_getElem?
        (fun p => p == WorkerPc.counted || p == WorkerPc.exited) workers idx .counted .exited hold
      simp at hcmp
      exact ⟨rfl, by simp only [completed]; omega⟩
    · exact absurd hstep (by simp)

/-- Every step executes one of the statements counted by `remaining`. -/
theorem step_remaining {W : Type} (d : UnitDeps W) (files : List GoString) (s s1 : State)
    (a : Action W) (hinv : Inv d files s) (hstep : step d files s a = some s1) :
    remaining files.length s1 + 1 = remaining files.length s := by
  obtain ⟨hwl, hrl, hmb, hab, hwg, hpr, hsr, hra⟩ := hinv
  obtain ⟨pc, workers, results, wg, processing⟩ := s
  simp only at hwl hrl hmb hab hwg hpr hsr hra
  cases a with
  | main =>
    cases pc with
    | loop i =>
      simp only [step] at hstep
      split at hstep
      · simp only [Option.some.injEq] at hstep
        subst hstep
        simp only [remaining]
        omega
      · simp only [Option.some.injEq] at hstep
        subst hstep
        have hi : i ≤ files.length := hmb
        simp only [remaining]
        omega
    | launch i =>
      simp only [step, Option.some.injEq] at hstep
      subst hstep
      have hmb : i < files.length := hmb
      have hold : workers[i]? = some .absent := (hab i hmb).2 (by simp [spawned])
      have hsum := sum_map_set_of_getElem? (fun p => match p with
        | WorkerPc.absent => 3
        | .start => 3
        | .stored => 2
        | .counted => 1
        | .exited => 0) workers i .absent .start hold
      simp only at hsum
      simp only [remaining]
      omega
    | wait =>
      simp only [step] at hstep
      split at hstep
      · simp only [Option.some.injEq] at hstep
        subst hstep
        simp only [remaining]
        omega
      · exact absurd hstep (by simp)
    | returned => simp [step] at hstep
  | worker idx w =>
    simp only [step] at hstep
    split at hstep
    · next hold =>
      simp only [Option.some.injEq] at hstep
      subst hstep
      have hsum := sum_map_set_of_getElem? (fun p => match p with
        | WorkerPc.absent => 3
        | .start => 3
        | .stored => 2
        | .counted => 1
        | .exited => 0) workers idx .start .stored hold
      simp only at hsum
      simp only [remaining]
      omega
    · next hold =>
      simp only [Option.some.injEq] at hstep
      subst hstep
      have hsum := sum_map_set_of_getElem? (fun p => match p with
        | WorkerPc.absent => 3
        | .start => 3
        | .stored => 2
        | .counted => 1
        | .exited => 0) workers idx .stored .counted hold
      simp only at hsum
      simp only [remaining]
      omega
    · next hold =>
      simp only [Option.some.injEq] at hstep
      subst hstep
      have hsum := sum_map_set_of_getElem? (fun p => match p with
        | WorkerPc.absent => 3
        | .start => 3
        | .stored => 2
        | .counted => 1
        | .exited => 0) workers idx .counted .exited hold
      simp only at hsum
      simp only [remaining]
      omega
    · exact absurd hstep (by simp)

/-- A run that has not returned can take a step: the goroutine of
`processFiles` unless it waits, and then a goroutine that has not finished. -/
theorem step_exists {W : Type} (d : UnitDeps W) (files : List GoString) (s : State) (w0 : W)
    (hinv : Inv d files s) (hmain : s.main ≠ .returned) :
    ∃ a s1, step d files s a = some s1 := by
  obtain ⟨hwl, hrl, hmb, hab, hwg, hpr, hsr, hra⟩ := hinv
  obtain ⟨pc, workers, results, wg, processing⟩ := s
  simp only at hwl hrl hmb hab hwg hpr hsr hra hmain
  cases pc with
  | loop i =>
    refine ⟨.main, ?_⟩
    simp only [step]
    split <;> exact ⟨_, rfl⟩
  | launch i => exact ⟨.main, _, rfl⟩
  | returned => exact absurd rfl hmain
  | wait =>
    by_cases hz : wg = 0
    · exact ⟨.main, ⟨.returned, workers, results, wg, processing⟩, by simp [step, hz]⟩
    · have hwg0 : wg = (active ⟨.wait, workers, results, wg, processing⟩ : Int) + 0 := hwg
      have hpos : 0 < List.countP
          (fun p => p == WorkerPc.start || p == WorkerPc.stored || p == WorkerPc.counted)
          workers := by
        simp only [active] at hwg0
        omega
      obtain ⟨p, hmem, hp⟩ := List.countP_pos_iff.1 hpos
      obtain ⟨idx, hidx⟩ := List.getElem?_of_mem hmem
      refine ⟨.worker idx w0, ?_⟩
      simp only [step, hidx]
      cases p <;> simp at hp ⊢

end processFiles

namespace processFiles

/-- From every state satisfying the invariant some schedule leads to the
return of `processFiles`. -/
theorem run_to_returned {W : Type} (d : UnitDeps W) (files : List GoString) (w0 : W)
    (n : Nat) (s : State) (hinv : Inv d files s) (hn : remaining files.length s ≤ n) :
    ∃ sched s1, run d files s sched = some s1 ∧ s1.main = .returned := by
  induction n generalizing s with
  | zero =>
    by_cases hmain : s.main = .returned
    · exact ⟨[], s, rfl, hmain⟩
    · obtain ⟨a, s1, hstep⟩ := step_exists d files s w0 hinv hmain
      have := step_remaining d files s s1 a hinv hstep
      omega
  | succ n ih =>
    by_cases hmain : s.main = .returned
    · exact ⟨[], s, rfl, hmain⟩
    · obtain ⟨a, s1, hstep⟩ := step_exists d files s w0 hinv hmain
      have hrem := step_remaining d files s s1 a hinv hstep
      obtain ⟨sched, s2, hrun, hret⟩ := ih s1 (inv_step d files s s1 a hinv hstep) (by omega)
      exact ⟨a :: sched, s2, by simp [run, hstep, hrun], hret⟩

end processFiles

/-- Claim C3: in every state a run of `processFiles` on `files` can reach,
under every interleaving of the goroutines and whatever `getFileDiff` and
`generateCommitMessage` do: once `processFiles` has returned, `results` has
the length of `files` and its element `i` is what `processFile` returned for
`files[i]`, so that its `FilePath` is `files[i]`; and `processFiles` does
return, since a run that has not returned can take a step, every step
executes one of finitely many remaining statements, and some schedule leads
from the state to the return. -/
theorem processFiles_results {W : Type} (d : UnitDeps W) (files : List GoString) (w0 : W)
    (s : processFiles.State) (hs : processFiles.Reachable d files s) :
    (s.main = .returned →
      s.results.length = files.length ∧
      ∀ i, i < files.length →
        (∃ w, s.results[i]? = some (processFile d (files.getD i []) w).1) ∧
        (s.results[i]?).map (fun r => r.FilePath) = files[i]?) ∧
    (s.main ≠ .returned → ∃ a s1, processFiles.step d files s a = some s1) ∧
    (∀ a s1, processFiles.step d files s a = some s1 →
      processFiles.remaining files.length s1 < processFiles.remaining files.length s) ∧
    (∃ sched s1, processFiles.run d files s sched = some s1 ∧ s1.main = .returned) := by
  have hinv := processFiles.inv_reachable d files s hs
  refine ⟨?_, ?_, ?_, ?_⟩
  · intro hret
    refine ⟨hinv.results_len, ?_⟩
    intro i hi
    have hw := hinv.returned_all hret i hi
    obtain ⟨w, hres⟩ := hinv.stored_result i .exited hw (by simp) (by simp)
    refine ⟨⟨w, hres⟩, ?_⟩
    rw [hres]
    simp [processFiles.processFile_path, List.getD_eq_getElem?_getD, List.getElem?_eq_getElem hi]
  · intro hmain
    exact processFiles.step_exists d files s w0 hinv hmain
  · intro a s1 hstep
    have := processFiles.step_remaining d files s s1 a hinv hstep
    omega
  · exact processFiles.run_to_returned d files w0 _ s hinv (le_refl _)

/-- Witness of claim C3: an interleaved run on the paths `"a"` and `"x"`
returns one result per path, in order. -/
theorem processFiles_results_witness :
    processFiles.Reachable sampleDeps processFiles.sampleFiles processFiles.sampleFinal ∧
    processFiles.sampleFinal.results.length = processFiles.sampleFiles.length ∧
    (processFiles.sampleFinal.results[1]?).map (fun r => r.FilePath)
      = processFiles.sampleFiles[1]? :=
  have hr : processFiles.Reachable sampleDeps processFiles.sampleFiles processFiles.sampleFinal :=
    ⟨processFiles.sampleSched, by decide⟩
  ⟨hr,
    ((processFiles_results sampleDeps processFiles.sampleFiles () processFiles.sampleFinal hr).1
      rfl).1,
    (((processFiles_results sampleDeps processFiles.sampleFiles () processFiles.sampleFinal hr).1
      rfl).2 1 (by decide)).2⟩

/-- Counterexample to claim C8: for 2147483648 changed files the counter
`processing` starts at `int32(2147483648) = -2147483648`, which is negative
and is not the number of files. -/
theorem processing_counter_wraps :
    processFiles.Reachable sampleDeps (List.replicate 2147483648 [])
      (processFiles.init (List.replicate 2147483648 [])) ∧
    (processFiles.init (List.replicate 2147483648 [])).processing = -2147483648 := by
  refine ⟨⟨[], rfl⟩, ?_⟩
  show wrapInt32 ((List.replicate 2147483648 ([] : GoString)).length : Int) = _
  rw [List.length_replicate]
  unfold wrapInt32
  norm_num

/-- Claim C8, amended: in a run over `N` changed files with `N < 2^31`, the
counter `processing` starts at `N`; in every reachable state it equals `N`
minus the number of completed units (those that have executed
`processing.Add(-1)`) and is not negative; a step either leaves counter and
completed units unchanged, or is the `processing.Add(-1)` of one goroutine,
which completes one more unit and lowers the counter by one; and the counter
is 0 once `processFiles` has returned. -/
theorem processing_counter {W : Type} (d : UnitDeps W) (files : List GoString)
    (hN : files.length < 2 ^ 31) (s : processFiles.State)
    (hs : processFiles.Reachable d files s) :
    (processFiles.init files).processing = files.length ∧
    s.processing = (files.length : Int) - processFiles.completed s ∧
    0 ≤ s.processing ∧
    (∀ a s1, processFiles.step d files s a = some s1 →
      s1.processing ≤ s.processing ∧
      ((s1.processing = s.processing ∧ processFiles.completed s1 = processFiles.completed s) ∨
       (∃ idx w, a = .worker idx w ∧ s.workers[idx]? = some .stored ∧
          s1.processing = s.processing - 1 ∧
          processFiles.completed s1 = processFiles.completed s + 1))) ∧
    (s.main = .returned → s.processing = 0 ∧ processFiles.completed s = files.length) := by
  have hinv := processFiles.inv_reachable d files s hs
  have hrange : ∀ t : processFiles.State, processFiles.Inv d files t →
      t.processing = (files.length : Int) - processFiles.completed t ∧
      processFiles.completed t ≤ files.length := by
    intro t ht
    have hle : processFiles.completed t ≤ files.length := by
      rw [← ht.workers_len]
      exact List.countP_le_length _
    have hlt : (files.length : Int) < 2 ^ 31 := by exact_mod_cast hN
    refine ⟨?_, hle⟩
    rw [ht.processing_eq]
    exact processFiles.wrapInt32_of_range _ (by omega) (by omega)
  obtain ⟨hp, hc⟩ := hrange s hinv
  refine ⟨?_, hp, by omega, ?_, ?_⟩
  · have hlt : (files.length : Int) < 2 ^ 31 := by exact_mod_cast hN
    exact processFiles.wrapInt32_of_range _ (by omega) hlt
  · intro a s1 hstep
    obtain ⟨hp1, hc1⟩ := hrange s1 (processFiles.inv_step d files s s1 a hinv hstep)
    rcases processFiles.step_processing d files s s1 a hinv hstep with ⟨h1, h2⟩ |
      ⟨idx, w, ha, hw, h1, h2⟩
    · exact ⟨by omega, Or.inl ⟨h1, h2⟩⟩
    · exact ⟨by omega, Or.inr ⟨idx, w, ha, hw, by omega, h2⟩⟩
  · intro hret
    have hall : processFiles.completed s = files.length := by
      have hex : ∀ p ∈ s.workers, (p == processFiles.WorkerPc.counted
          || p == processFiles.WorkerPc.exited) = true := by
        intro p hmem
        obtain ⟨j, hj⟩ := List.getElem?_of_mem hmem
        have hjl := processFiles.lt_length_of_getElem? s.workers j p hj
        have := hinv.returned_all hret j (by rw [← hinv.workers_len]; exact hjl)
        rw [hj] at this
        simp only [Option.some.injEq] at this
        subst this
        rfl
      rw [processFiles.completed, List.countP_eq_length.2 hex, hinv.workers_len]
    exact ⟨by omega, hall⟩

/-- Witness of claim C8: at the end of an interleaved run over two files the
counter is 0. -/
theorem processing_counter_witness : processFiles.sampleFinal.processing = 0 :=
  ((processing_counter sampleDeps processFiles.sampleFiles (by decide) processFiles.sampleFinal
    ⟨processFiles.sampleSched, by decide⟩).2.2.2.2 rfl).1

end Gitai
